import Mathlib

/-!
Verification of the CSV database seeder of `src/database/populate.py`
(class `CSVDatabaseSeeder` and entry point `main`).

The embedding is shallow:

* pandas column transforms of `_preprocess_csv` become pure functions on a
  `RawRow` record (one per CSV line);
* the SQLAlchemy session becomes an explicit `Session` state holding a
  `committed` and a `pending` database snapshot; each `execute` call is a
  statement that may be made to raise a data-layer error by a fault
  schedule (`faults : List Bool`, statement `n` raises when entry `n` is
  `true`), modelling `SQLAlchemyError`;
* every `async` method becomes an explicit state-passing function
  `Exec → Except SeedErr α × Exec` (the session object survives a raised
  exception, so the state is returned on both paths);
* machine floats of the numeric columns are modelled as `ℚ`.
-/

namespace Populate

/-! ### String helpers modelling the pandas/Python primitives -/

/-- Models the character class `\s` of a Python regular expression (and the
whitespace set of `str.strip`) for the Latin-1 range: space, tab, newline,
carriage return, vertical tab, form feed and the no-break space. -/
def pyIsSpace (c : Char) : Bool :=
  c = ' ' || c = '\t' || c = '\n' || c = '\r' ||
  c = '\x0b' || c = '\x0c' || c = ' '

/-- Models `pandas.Series.str.replace(r'\s+', '', regex=True)`: replacing every
maximal whitespace run by the empty string removes every whitespace
character. -/
def removeWS (s : String) : String :=
  ⟨s.data.filter (fun c => !pyIsSpace c)⟩

/-- Models `str.replace(' ', '')`: removes every no-break space. -/
def removeNbsp (s : String) : String :=
  ⟨s.data.filter (fun c => c ≠ ' ')⟩

/-- Models Python `str.strip()`: drops leading and trailing whitespace. -/
def pyStrip (s : String) : String :=
  ⟨(s.data.dropWhile pyIsSpace).reverse.dropWhile pyIsSpace |>.reverse⟩

/-- Worker for `splitOn`: `cur` holds the reversed characters of the field
being accumulated. -/
def splitCharAux (sep : Char) (cur : List Char) : List Char → List (List Char)
  | [] => [cur.reverse]
  | c :: cs =>
    if c = sep then cur.reverse :: splitCharAux sep [] cs
    else splitCharAux sep (c :: cur) cs

/-- Models Python `str.split(sep)` for a one-character separator (no
maximal-split argument): `"".split(',') = [""]`, and a trailing separator
yields a final `""`. -/
def splitOn (sep : Char) (s : String) : List String :=
  (splitCharAux sep [] s.data).map fun l => ⟨l⟩

/-- Python `str.split(',')`. -/
def splitComma (s : String) : List String :=
  splitOn ',' s

/-- Models Python `','.join(l)`. -/
def joinComma : List String → String
  | [] => ""
  | [t] => t
  | t :: rest => t ++ "," ++ joinComma rest

/-- Lexicographic comparison of character lists by code point, the order
Python `sorted` uses on strings. -/
def charListLe : List Char → List Char → Bool
  | [], _ => true
  | _ :: _, [] => false
  | a :: as, b :: bs =>
    if a < b then true else if b < a then false else charListLe as bs

/-- String `a` precedes-or-equals `b` in Python string order. -/
def strLe (a b : String) : Bool :=
  charListLe a.data b.data

/-- Insert into a `strLe`-sorted list, keeping it sorted. -/
def insertSorted (a : String) : List String → List String
  | [] => [a]
  | b :: l => if strLe a b then a :: b :: l else b :: insertSorted a l

/-- Insertion sort under Python string order. -/
def sortStrings : List String → List String
  | [] => []
  | a :: l => insertSorted a (sortStrings l)

/-- Keeps the first occurrence of every value, in encounter order;
`seen` accumulates the values already emitted. -/
def pyUniqueAux (seen : List String) : List String → List String
  | [] => []
  | a :: l =>
    if a ∈ seen then pyUniqueAux seen l
    else a :: pyUniqueAux (a :: seen) l

/-- Models `pandas.Series.unique()` / first-occurrence deduplication. -/
def pyUnique (l : List String) : List String :=
  pyUniqueAux [] l

/-- Models Python `sorted(set(l))` for strings: the distinct elements of `l`
in lexicographic order. -/
def pySortedSet (l : List String) : List String :=
  sortStrings (pyUnique l)

/-! ### Date and numeric parsing -/

/-- A calendar date, the result of `pd.to_datetime(..., format='%Y-%m-%d')`
followed by `.dt.date`. -/
structure Date where
  year : Nat
  month : Nat
  day : Nat
deriving DecidableEq, Repr

/-- Day count of a month, Gregorian rules (as `datetime.date` enforces). -/
def daysInMonth (y m : Nat) : Nat :=
  if m = 2 then
    if y % 4 = 0 && (y % 100 ≠ 0 || y % 400 = 0) then 29 else 28
  else if m = 4 || m = 6 || m = 9 || m = 11 then 30
  else 31

/-- Decimal value of an all-digit character list (`int(s)` on a digit
string). -/
def digitsToNat (l : List Char) : Nat :=
  l.foldl (fun n c => 10 * n + (c.toNat - 48)) 0

/-- Models `pd.to_datetime(s, format='%Y-%m-%d', errors='coerce')` on one
value: the string must consist of three dash-separated decimal fields and
denote a valid Gregorian date, otherwise the value coerces to `NaT`
(`none`). `"2024-13-40"` has month `13` and is rejected. -/
def parseDate (s : String) : Option Date :=
  match splitOn '-' s with
  | [ys, ms, ds] =>
    if ys ≠ "" && ms ≠ "" && ds ≠ "" &&
       ys.data.all Char.isDigit && ms.data.all Char.isDigit &&
       ds.data.all Char.isDigit then
      let y := digitsToNat ys.data
      let m := digitsToNat ms.data
      let d := digitsToNat ds.data
      if 1 ≤ m && m ≤ 12 && 1 ≤ d && d ≤ daysInMonth y m then
        some ⟨y, m, d⟩
      else none
    else none
  | _ => none

/-- Parses an unsigned decimal literal (`digits` or `digits.digits` or
`digits.` or `.digits`) as a rational. -/
def parseDecimal (s : String) : Option ℚ :=
  match splitOn '.' s with
  | [intPart] =>
    if intPart ≠ "" && intPart.data.all Char.isDigit then
      some (digitsToNat intPart.data : ℚ)
    else none
  | [intPart, fracPart] =>
    if (intPart ≠ "" || fracPart ≠ "") &&
       intPart.data.all Char.isDigit && fracPart.data.all Char.isDigit then
      some ((digitsToNat intPart.data : ℚ) +
            (digitsToNat fracPart.data : ℚ) / ((10 : ℚ) ^ fracPart.length))
    else none
  | _ => none

/-- Models `pd.to_numeric(s, errors='coerce')` on one string value,
restricted to optionally signed decimal literals with surrounding
whitespace (scientific notation is not modelled; no value in the claims
uses it). A non-numeric string such as `"N/A"` coerces to `NaN` (`none`). -/
def parseNumeric (s : String) : Option ℚ :=
  let t := pyStrip s
  match t.data with
  | '-' :: rest => (parseDecimal ⟨rest⟩).map (fun q => -q)
  | '+' :: rest => parseDecimal ⟨rest⟩
  | _ => parseDecimal t

/-! ### CSV rows and `_preprocess_csv` -/

/-- One line of the input CSV as `pd.read_csv` presents it to the seeder:
the five categorical columns may be missing (`NaN`, modelled `none`);
the numeric and date columns are kept as their raw string form (a missing
numeric is an unparseable string, which `to_numeric` likewise coerces). -/
structure RawRow where
  names : String
  date_x : String
  score : String
  genre : Option String
  overview : String
  crew : Option String
  orig_lang : Option String
  budget_x : String
  revenue : String
  country : Option String
  status : Option String
deriving DecidableEq, Repr

/-- A row of the cleaned dataset produced by `_preprocess_csv`. -/
structure CleanRow where
  names : String
  date : Date
  score : ℚ
  genre : String
  overview : String
  crew : String
  orig_lang : String
  budget : ℚ
  revenue : ℚ
  country : String
  status : String
deriving DecidableEq, Repr

/-- Worker for `dropDuplicates`: `seen` accumulates the `(names, date_x)`
pairs of rows already kept. -/
def dropDuplicatesAux (seen : List (String × String)) : List RawRow → List RawRow
  | [] => []
  | r :: l =>
    if (r.names, r.date_x) ∈ seen then dropDuplicatesAux seen l
    else r :: dropDuplicatesAux ((r.names, r.date_x) :: seen) l

/-- Models `data.drop_duplicates(subset=['names', 'date_x'], keep='first')`:
keeps the first row of every `(names, date_x)` pair. -/
def dropDuplicates (rows : List RawRow) : List RawRow :=
  dropDuplicatesAux [] rows

/-- Models `fillna('Unknown').astype(str)` on one categorical value. -/
def fillUnknown (v : Option String) : String :=
  v.getD "Unknown"

/-- The `crew` column transform: `\s+` removal, then for non-`"Unknown"`
values split on comma, `sorted(set(...))`, rejoin with comma. -/
def cleanCrew (v : Option String) : String :=
  let x := removeWS (fillUnknown v)
  if x ≠ "Unknown" then joinComma (pySortedSet (splitComma x)) else x

/-- The per-row part of `_preprocess_csv` after duplicate removal: the
column transforms of lines 52–73 of `populate.py`, which act value-wise.
Returns `none` when `date_x` coerces to `NaT` (the row is dropped by
`dropna(subset=['date_x'])`). -/
def cleanRow (r : RawRow) : Option CleanRow :=
  match parseDate r.date_x with
  | none => none
  | some d =>
    some
      { names := r.names
        date := d
        score := (parseNumeric r.score).getD 0
        genre := removeNbsp (fillUnknown r.genre)
        overview := r.overview
        crew := cleanCrew r.crew
        orig_lang := removeWS (fillUnknown r.orig_lang)
        budget := (parseNumeric r.budget_x).getD 0
        revenue := (parseNumeric r.revenue).getD 0
        country := fillUnknown r.country
        status := pyStrip (fillUnknown r.status) }

/-- Models `CSVDatabaseSeeder._preprocess_csv` on the in-memory dataset:
duplicate removal, the column transforms, and the invalid-date drop.
Returns the cleaned rows together with the invalid-date count that the
warning reports. The rewrite of the CSV file back to disk is a side effect
outside every claim and is not modelled. -/
def preprocess_csv (rows : List RawRow) : List CleanRow × Nat :=
  let deduped := dropDuplicates rows
  (deduped.filterMap cleanRow,
   (deduped.filter (fun r => parseDate r.date_x = none)).length)

/-! ### Database and session model

The SQLAlchemy `AsyncSession` of the seeder is modelled as a pair of
database snapshots: `committed` (what is durably visible) and `pending`
(the state the open transaction sees; `flush` makes buffered writes
visible within the transaction, which the model reflects by applying every
write to `pending` immediately, so `flush` itself is a no-op). `commit`
publishes `pending`; `rollback` resets it. Each `execute` call is numbered
and a fault schedule may make any of them raise `SQLAlchemyError`. -/

/-- The `CHUNK_SIZE` constant of `populate.py`. -/
def CHUNK_SIZE : Nat := 1000

/-- A reference-entity row (`CountryModel` / `GenreModel` / `ActorModel` /
`LanguageModel`): a generated id plus the natural-key column (`code` for
country, `name` for the rest). Only the natural-key column participates in
the seeder's logic, so it is the single modelled column. -/
structure Row where
  id : Nat
  key : String
deriving DecidableEq, Repr

/-- A reference table with its autoincrement counter. -/
structure Table where
  nextId : Nat
  rows : List Row
deriving DecidableEq, Repr

/-- A movie record as built by `_prepare_movies_data` (no id yet). -/
structure MovieIns where
  name : String
  date : Date
  score : ℚ
  overview : String
  status : String
  budget : ℚ
  revenue : ℚ
  countryId : Nat
deriving DecidableEq, Repr

/-- A persisted `MovieModel` row. -/
structure MovieRow extends MovieIns where
  id : Nat
deriving DecidableEq, Repr

/-- The movies table with its autoincrement counter. -/
structure MovieTable where
  nextId : Nat
  rows : List MovieRow
deriving DecidableEq, Repr

/-- An association row of `MoviesGenresModel` / `ActorsMoviesModel` /
`MoviesLanguagesModel`: `(movie_id, ref_id)`. -/
structure Assoc where
  movieId : Nat
  refId : Nat
deriving DecidableEq, Repr

/-- One database snapshot: every table the seeder touches. -/
structure DB where
  userGroups : List String
  countries : Table
  genres : Table
  actors : Table
  languages : Table
  movies : MovieTable
  movieGenres : List Assoc
  movieActors : List Assoc
  movieLanguages : List Assoc
deriving DecidableEq, Repr

/-- The session: committed (durably visible) and pending (in-transaction)
snapshots. -/
structure Session where
  committed : DB
  pending : DB
deriving DecidableEq, Repr

/-- Execution state of a run: the session, the fault schedule (statement
`n` raises `SQLAlchemyError` when entry `n` is `true`; a missing entry
means no fault), and the statement counter. -/
structure Exec where
  sess : Session
  faults : List Bool
  count : Nat
deriving DecidableEq, Repr

/-- The exceptions the seeder can raise: `SQLAlchemyError` from a
statement (`dbError`), a `KeyError` from a reference-map lookup, an
`IndexError` from `movie_ids[i]`, and `scalar_one` finding zero or several
rows. -/
inductive SeedErr where
  | dbError
  | keyError
  | indexError
  | scalarError
deriving DecidableEq, Repr

/-- Runs one `session.execute(...)` call: raises when the fault schedule
says so, otherwise applies the statement's effect to the pending
snapshot. -/
def execStmt {α : Type} (f : DB → α × DB) (st : Exec) :
    Except SeedErr α × Exec :=
  if st.faults.getD st.count false then
    (.error .dbError, { st with count := st.count + 1 })
  else
    let (a, db) := f st.sess.pending
    (.ok a,
     { st with sess := { st.sess with pending := db }, count := st.count + 1 })

/-- Runs `session.commit()`: publishes the pending snapshot (itself a
statement that the fault schedule may make raise). -/
def commitStmt (st : Exec) : Except SeedErr Unit × Exec :=
  if st.faults.getD st.count false then
    (.error .dbError, { st with count := st.count + 1 })
  else
    (.ok (),
     { st with sess := { committed := st.sess.pending, pending := st.sess.pending },
               count := st.count + 1 })

/-! ### Chunking and the Python dict -/

/-- Worker for `chunksOf`: `cur` is the reversed current chunk, `k` its
remaining capacity. -/
def chunksOfAux {α : Type} (n : Nat) (cur : List α) (k : Nat) :
    List α → List (List α)
  | [] => if cur.isEmpty then [] else [cur.reverse]
  | a :: l =>
    match k with
    | 0 => cur.reverse :: chunksOfAux n [a] (n - 1) l
    | k' + 1 => chunksOfAux n (a :: cur) k' l

/-- Models the slicing loop `for i in range(0, len(l), n): l[i:i+n]`:
consecutive chunks of size `n` (the last possibly shorter); the empty list
has no chunks. -/
def chunksOf {α : Type} (n : Nat) (l : List α) : List (List α) :=
  chunksOfAux n [] n l

/-- The seeder's reference maps are Python dicts keyed by the natural-key
string; the model is an association list with unique keys in insertion
order. -/
abbrev RefDict := List (String × Row)

/-- Models `d[k] = v` on a Python dict: overwrites in place when the key
exists (keys are unique, so replacing the first occurrence is the
overwrite), else appends. -/
def dictInsert : RefDict → String → Row → RefDict
  | [], k, v => [(k, v)]
  | p :: rest, k, v =>
    if p.1 = k then (k, v) :: rest else p :: dictInsert rest k v

/-- Models `d.get(k)` / `d[k]`. -/
def dictLookup : RefDict → String → Option Row
  | [], _ => none
  | p :: rest, k => if p.1 = k then some p.2 else dictLookup rest k

/-- Models `k in d`. -/
def dictContains : RefDict → String → Bool
  | [], _ => false
  | p :: rest, k => p.1 = k || dictContains rest k

/-- Models `for obj in rows: d[getattr(obj, unique_field)] = obj`. -/
def dictMergeRows (m : RefDict) (rows : List Row) : RefDict :=
  rows.foldl (fun m r => dictInsert m r.key r) m

/-! ### `_get_or_create_bulk` -/

/-- Models `select(model).where(getattr(model, unique_field).in_(chunk))`:
the table rows whose key is in the chunk, in table order. -/
def Table.selectIn (t : Table) (chunk : List String) : List Row :=
  t.rows.filter (fun r => r.key ∈ chunk)

/-- The rows a bulk insert of `keys` appends, with consecutive generated
ids starting at `n`. -/
def rowsFrom (n : Nat) : List String → List Row
  | [] => []
  | k :: ks => ⟨n, k⟩ :: rowsFrom (n + 1) ks

/-- Models `insert(model).values(chunk)` for records `{unique_field: item}`:
appends one row per item, with consecutive generated ids. -/
def Table.insertKeys (t : Table) (keys : List String) : Table :=
  { nextId := t.nextId + keys.length
    rows := t.rows ++ rowsFrom t.nextId keys }

/-- The last table row carrying natural key `k` — the row a per-key dict
merge over the table ends up keeping. -/
def Table.lastWithKey (t : Table) (k : String) : Option Row :=
  (t.rows.filter (fun r => r.key = k)).getLast?

/-- Identifies which reference table (`model` argument of
`_get_or_create_bulk`) an operation targets, as a getter/setter pair into
the database snapshot. -/
structure TableRef where
  get : DB → Table
  set : DB → Table → DB

/-- The `CountryModel` table (natural key `code`). -/
def countriesRef : TableRef :=
  ⟨fun db => db.countries, fun db t => { db with countries := t }⟩

/-- The `GenreModel` table (natural key `name`). -/
def genresRef : TableRef :=
  ⟨fun db => db.genres, fun db t => { db with genres := t }⟩

/-- The `ActorModel` table (natural key `name`). -/
def actorsRef : TableRef :=
  ⟨fun db => db.actors, fun db t => { db with actors := t }⟩

/-- The `LanguageModel` table (natural key `name`). -/
def languagesRef : TableRef :=
  ⟨fun db => db.languages, fun db t => { db with languages := t }⟩

/-- The two select loops of `_get_or_create_bulk` (lines 93–99 and
111–117): for each chunk, select the rows whose key is in the chunk and
merge them into the dict. -/
def selectLoop (ref : TableRef) : List (List String) → RefDict → Exec →
    Except SeedErr RefDict × Exec
  | [], m, st => (.ok m, st)
  | chunk :: rest, m, st =>
    match execStmt (fun db => ((ref.get db).selectIn chunk, db)) st with
    | (.error e, st) => (.error e, st)
    | (.ok rows, st) => selectLoop ref rest (dictMergeRows m rows) st

/-- The insert loop of `_get_or_create_bulk` (lines 105–108): for each
chunk of new records, execute the bulk insert and flush. -/
def insertLoop (ref : TableRef) : List (List String) → Exec →
    Except SeedErr Unit × Exec
  | [], st => (.ok (), st)
  | chunk :: rest, st =>
    match execStmt (fun db => ((), ref.set db ((ref.get db).insertKeys chunk))) st with
    | (.error e, st) => (.error e, st)
    | (.ok _, st) => insertLoop ref rest st

/-- Models `CSVDatabaseSeeder._get_or_create_bulk`: select existing rows
chunk-wise into a dict, compute the items still missing, bulk-insert them,
re-select the newly inserted keys chunk-wise, and return the dict. The
`if items:` guard is implicit (an empty list yields no chunks), the
`if new_records:` guard is the `isEmpty` test. -/
def get_or_create_bulk (ref : TableRef) (items : List String) (st : Exec) :
    Except SeedErr RefDict × Exec :=
  match selectLoop ref (chunksOf CHUNK_SIZE items) [] st with
  | (.error e, st) => (.error e, st)
  | (.ok existing_dict, st) =>
    let new_items := items.filter (fun it => !dictContains existing_dict it)
    if new_items.isEmpty then (.ok existing_dict, st)
    else
      match insertLoop ref (chunksOf CHUNK_SIZE new_items) st with
      | (.error e, st) => (.error e, st)
      | (.ok _, st) => selectLoop ref (chunksOf CHUNK_SIZE new_items) existing_dict st

/-! ### `_bulk_insert` and the movie-insert stage -/

/-- Identifies an association table (`table` argument of `_bulk_insert`). -/
structure AssocRef where
  get : DB → List Assoc
  set : DB → List Assoc → DB

/-- The `MoviesGenresModel` table. -/
def movieGenresRef : AssocRef :=
  ⟨fun db => db.movieGenres, fun db l => { db with movieGenres := l }⟩

/-- The `ActorsMoviesModel` table. -/
def movieActorsRef : AssocRef :=
  ⟨fun db => db.movieActors, fun db l => { db with movieActors := l }⟩

/-- The `MoviesLanguagesModel` table. -/
def movieLanguagesRef : AssocRef :=
  ⟨fun db => db.movieLanguages, fun db l => { db with movieLanguages := l }⟩

/-- Models `CSVDatabaseSeeder._bulk_insert`: insert the association rows
chunk by chunk, then flush. The `if chunk:` guard is implicit (`chunksOf`
produces no empty chunk). -/
def bulk_insert (ref : AssocRef) : List (List Assoc) → Exec →
    Except SeedErr Unit × Exec
  | [], st => (.ok (), st)
  | chunk :: rest, st =>
    match execStmt (fun db => ((), ref.set db (ref.get db ++ chunk))) st with
    | (.error e, st) => (.error e, st)
    | (.ok _, st) => bulk_insert ref rest st

/-- The movie rows a bulk insert of `chunk` appends, with consecutive
generated ids starting at `n`. -/
def movieRowsFrom (n : Nat) : List MovieIns → List MovieRow
  | [] => []
  | m :: ms => { m with id := n } :: movieRowsFrom (n + 1) ms

/-- Models `insert(MovieModel).values(chunk)`: appends one row per record
with consecutive generated ids. -/
def MovieTable.insertMovies (t : MovieTable) (chunk : List MovieIns) : MovieTable :=
  { nextId := t.nextId + chunk.length
    rows := t.rows ++ movieRowsFrom t.nextId chunk }

/-- Models `select(MovieModel.id).where(and_(name == ..., date == ...))`:
the ids of the rows matching the natural key, in table order. -/
def MovieTable.selectIdByKey (t : MovieTable) (name : String) (d : Date) : List Nat :=
  (t.rows.filter (fun r => r.name = name ∧ r.date = d)).map (fun r => r.id)

/-- The id-recovery loop of `seed` (lines 215–222): for each movie of the
just-inserted chunk, select by `(name, date)` and take `scalar_one()`,
which raises unless exactly one row matches. -/
def fetchIds : List MovieIns → Exec → Except SeedErr (List Nat) × Exec
  | [], st => (.ok [], st)
  | movie :: rest, st =>
    match execStmt (fun db => (db.movies.selectIdByKey movie.name movie.date, db)) st with
    | (.error e, st) => (.error e, st)
    | (.ok ids, st) =>
      match ids with
      | [i] =>
        match fetchIds rest st with
        | (.error e, st) => (.error e, st)
        | (.ok rest_ids, st) => (.ok (i :: rest_ids), st)
      | _ => (.error .scalarError, st)

/-- The movie-insert stage of `seed` (lines 208–222): for each chunk,
bulk-insert it, flush, and recover the generated ids by natural key, in
row order. -/
def insertMoviesChunks : List (List MovieIns) → Exec →
    Except SeedErr (List Nat) × Exec
  | [], st => (.ok [], st)
  | chunk :: rest, st =>
    match execStmt (fun db => ((), { db with movies := db.movies.insertMovies chunk })) st with
    | (.error e, st) => (.error e, st)
    | (.ok _, st) =>
      match fetchIds chunk st with
      | (.error e, st) => (.error e, st)
      | (.ok ids, st) =>
        match insertMoviesChunks rest st with
        | (.error e, st) => (.error e, st)
        | (.ok rest_ids, st) => (.ok (ids ++ rest_ids), st)

/-! ### The prepare stages -/

/-- The comma-token multiset of one multi-value column value as both
`_prepare_reference_data` (set comprehensions, lines 141–143) and
`_prepare_associations` (inner loops, lines 177–190) read it: split on
comma, strip each token, keep the non-empty ones. -/
def fieldTokens (v : String) : List String :=
  ((splitComma v).map pyStrip).filter (fun t => t ≠ "")

/-- Models `CSVDatabaseSeeder._prepare_reference_data` minus its four
database calls: the four candidate natural-key lists. `countries` is
`data['country'].unique()` (first-occurrence order); the other three are
Python set comprehensions over the non-empty stripped comma-tokens, whose
iteration order is unspecified — modelled in first-occurrence order, and
no theorem below depends on that order. The `.dropna()` calls are
identity here because preprocessing already replaced every missing value.
-/
def referenceItems (data : List CleanRow) :
    List String × List String × List String × List String :=
  (pyUnique (data.map (fun r => r.country)),
   pyUnique (data.flatMap (fun r => fieldTokens r.genre)),
   pyUnique (data.flatMap (fun r => fieldTokens r.crew)),
   pyUnique (data.flatMap (fun r => fieldTokens r.orig_lang)))

/-- Models `CSVDatabaseSeeder._prepare_reference_data`: build the four
candidate lists and resolve each through `_get_or_create_bulk`. -/
def prepare_reference_data (data : List CleanRow) (st : Exec) :
    Except SeedErr (RefDict × RefDict × RefDict × RefDict) × Exec :=
  let items := referenceItems data
  match get_or_create_bulk countriesRef items.1 st with
  | (.error e, st) => (.error e, st)
  | (.ok country_map, st) =>
    match get_or_create_bulk genresRef items.2.1 st with
    | (.error e, st) => (.error e, st)
    | (.ok genre_map, st) =>
      match get_or_create_bulk actorsRef items.2.2.1 st with
      | (.error e, st) => (.error e, st)
      | (.ok actor_map, st) =>
        match get_or_create_bulk languagesRef items.2.2.2 st with
        | (.error e, st) => (.error e, st)
        | (.ok language_map, st) =>
          (.ok (country_map, genre_map, actor_map, language_map), st)

/-- The movie record `_prepare_movies_data` builds from one row (lines
156–165): the row's scalar columns plus the resolved country id. -/
def mkMovieIns (r : CleanRow) (countryId : Nat) : MovieIns :=
  { name := r.names, date := r.date, score := r.score,
    overview := r.overview, status := r.status,
    budget := r.budget, revenue := r.revenue,
    countryId := countryId }

/-- Models `CSVDatabaseSeeder._prepare_movies_data`: one insertable record
per row, resolving the country through the map; `country_map[row['country']]`
raises `KeyError` (`none`) when the country is absent. -/
def prepare_movies_data (data : List CleanRow) (country_map : RefDict) :
    Option (List MovieIns) :=
  match data with
  | [] => some []
  | r :: rest =>
    match dictLookup country_map r.country with
    | none => none
    | some c =>
      match prepare_movies_data rest country_map with
      | none => none
      | some movies => some (mkMovieIns r c.id :: movies)

/-- One inner loop of `_prepare_associations` (e.g. lines 177–180): for
each comma-token, strip it; skip it when empty, else look it up in the
reference map (`KeyError` when absent) and emit `(movie_id, ref_id)`. -/
def assocForField (m : RefDict) (movieId : Nat) :
    List String → Option (List Assoc)
  | [] => some []
  | tok :: rest =>
    let t := pyStrip tok
    if t = "" then assocForField m movieId rest
    else
      match dictLookup m t with
      | none => none
      | some row =>
        match assocForField m movieId rest with
        | none => none
        | some l => some (⟨movieId, row.id⟩ :: l)

/-- Models `CSVDatabaseSeeder._prepare_associations`: for row `i` take
`movie_ids[i]` (`IndexError`, i.e. `none`, when the id list is too short)
and run the three inner loops; the three output lists concatenate across
rows in row order. -/
def prepare_associations : List CleanRow → List Nat →
    RefDict → RefDict → RefDict →
    Option (List Assoc × List Assoc × List Assoc)
  | [], _, _, _, _ => some ([], [], [])
  | r :: rest, ids, genre_map, actor_map, language_map =>
    match ids with
    | [] => none
    | movieId :: idRest =>
      match assocForField genre_map movieId (splitComma r.genre),
            assocForField actor_map movieId (splitComma r.crew),
            assocForField language_map movieId (splitComma r.orig_lang),
            prepare_associations rest idRest genre_map actor_map language_map with
      | some gs, some cs, some ls, some (gs', cs', ls') =>
        some (gs ++ gs', cs ++ cs', ls ++ ls')
      | _, _, _, _ => none

/-! ### `is_db_populated`, `_seed_user_groups`, `seed` and `main` -/

/-- Models `CSVDatabaseSeeder.is_db_populated`:
`select(MovieModel).limit(1)` and test whether a first row exists. -/
def is_db_populated (st : Exec) : Except SeedErr Bool × Exec :=
  execStmt (fun db => (!db.movies.rows.isEmpty, db)) st

/-- Modelled from the spec: the repository's `UserGroupEnum`
(`database/models`, not part of the provided sources) is "a fixed
enumeration of role names"; the three concrete names are immaterial to
every property proven below. -/
def userGroupNames : List String := ["user", "moderator", "admin"]

/-- Models `CSVDatabaseSeeder._seed_user_groups`: count the existing
groups; when zero, insert one row per enumeration member and flush. -/
def seed_user_groups (st : Exec) : Except SeedErr Unit × Exec :=
  match execStmt (fun db => (db.userGroups.length, db)) st with
  | (.error e, st) => (.error e, st)
  | (.ok n, st) =>
    if n = 0 then
      match execStmt
          (fun db => ((), { db with userGroups := db.userGroups ++ userGroupNames })) st with
      | (.error e, st) => (.error e, st)
      | (.ok _, st) => (.ok (), st)
    else (.ok (), st)

/-- Models `CSVDatabaseSeeder.seed`. The opening
`if self._db_session.in_transaction(): rollback()` is modelled by its
effect on the snapshots: a rollback resets `pending` to `committed` (an
open read-only transaction makes `in_transaction()` true, but rolling it
back is then the identity on both snapshots, so testing
`pending ≠ committed` instead is state-equivalent). The `try/except`
blocks only log before re-raising, so they do not alter the semantics. -/
def seed (csv : List RawRow) (st : Exec) : Except SeedErr Unit × Exec :=
  let st :=
    if st.sess.pending ≠ st.sess.committed then
      { st with sess := { st.sess with pending := st.sess.committed } }
    else st
  match seed_user_groups st with
  | (.error e, st) => (.error e, st)
  | (.ok _, st) =>
    let data := (preprocess_csv csv).1
    match prepare_reference_data data st with
    | (.error e, st) => (.error e, st)
    | (.ok (country_map, genre_map, actor_map, language_map), st) =>
      match prepare_movies_data data country_map with
      | none => (.error .keyError, st)
      | some movies_data =>
        match insertMoviesChunks (chunksOf CHUNK_SIZE movies_data) st with
        | (.error e, st) => (.error e, st)
        | (.ok movie_ids, st) =>
          match prepare_associations data movie_ids genre_map actor_map language_map with
          | none => (.error .keyError, st)
          | some (movie_genres_data, movie_actors_data, movie_languages_data) =>
            match bulk_insert movieGenresRef (chunksOf CHUNK_SIZE movie_genres_data) st with
            | (.error e, st) => (.error e, st)
            | (.ok _, st) =>
              match bulk_insert movieActorsRef (chunksOf CHUNK_SIZE movie_actors_data) st with
              | (.error e, st) => (.error e, st)
              | (.ok _, st) =>
                match bulk_insert movieLanguagesRef (chunksOf CHUNK_SIZE movie_languages_data) st with
                | (.error e, st) => (.error e, st)
                | (.ok _, st) => commitStmt st

/-- Models the entry point `main`: check `is_db_populated` and either skip
seeding entirely or run `seed`, whose failure `main` catches and only
logs (a failure of the population check itself propagates, as it is
outside the `try`). -/
def mainRun (csv : List RawRow) (st : Exec) : Except SeedErr Unit × Exec :=
  match is_db_populated st with
  | (.error e, st) => (.error e, st)
  | (.ok true, st) => (.ok (), st)
  | (.ok false, st) =>
    match seed csv st with
    | (.error _, st) => (.ok (), st)
    | (.ok _, st) => (.ok (), st)

/-! ### Concrete fixtures used by the witness theorems -/

/-- The empty database: the state before any seeding run. -/
def emptyDB : DB :=
  { userGroups := []
    countries := { nextId := 1, rows := [] }
    genres := { nextId := 1, rows := [] }
    actors := { nextId := 1, rows := [] }
    languages := { nextId := 1, rows := [] }
    movies := { nextId := 1, rows := [] }
    movieGenres := []
    movieActors := []
    movieLanguages := [] }

/-- A fresh session over the empty database, no injected faults. -/
def freshExec : Exec :=
  { sess := { committed := emptyDB, pending := emptyDB }, faults := [], count := 0 }

/-- A fresh session whose first statement raises `SQLAlchemyError`. -/
def faultyExec : Exec :=
  { sess := { committed := emptyDB, pending := emptyDB }, faults := [true], count := 0 }

/-- A database already holding one movie row. -/
def popDB : DB :=
  { emptyDB with
    movies :=
      { nextId := 2
        rows := [{ id := 1, name := "Creed III", date := ⟨2023, 3, 2⟩, score := 73,
                   overview := "o", status := "Released", budget := 0, revenue := 0,
                   countryId := 1 }] } }

/-- A fresh session over the populated database. -/
def popExec : Exec :=
  { sess := { committed := popDB, pending := popDB }, faults := [], count := 0 }

/-- A database whose genres table already holds one row keyed `"a"`. -/
def genreDB : DB :=
  { emptyDB with genres := { nextId := 5, rows := [⟨1, "a"⟩] } }

/-- A fresh session over `genreDB`, no injected faults. -/
def genreExec : Exec :=
  { sess := { committed := genreDB, pending := genreDB }, faults := [], count := 0 }

/-- A well-formed CSV line. -/
def sampleRow : RawRow :=
  { names := "Creed III", date_x := "2023-03-02", score := "73"
    genre := some "Drama,Action", overview := "o", crew := some "Michael B. Jordan"
    orig_lang := some "English", budget_x := "75000000", revenue := "271616668"
    country := some "AU", status := some "Released" }

/-- A second well-formed CSV line, distinct natural key. -/
def sampleRow2 : RawRow :=
  { names := "65", date_x := "2023-03-09", score := "61"
    genre := some "Science Fiction,", overview := "o2", crew := none
    orig_lang := some "English", budget_x := "N/A", revenue := "60736989"
    country := some "US", status := some " Released " }

/-- The cleaned row `_preprocess_csv` produces from `sampleRow2`, its
fields written as the column transforms compute them. -/
def sampleClean2 : CleanRow :=
  { names := sampleRow2.names
    date := ⟨2023, 3, 9⟩
    score := (parseNumeric sampleRow2.score).getD 0
    genre := removeNbsp (fillUnknown sampleRow2.genre)
    overview := sampleRow2.overview
    crew := cleanCrew sampleRow2.crew
    orig_lang := removeWS (fillUnknown sampleRow2.orig_lang)
    budget := (parseNumeric sampleRow2.budget_x).getD 0
    revenue := (parseNumeric sampleRow2.revenue).getD 0
    country := fillUnknown sampleRow2.country
    status := pyStrip (fillUnknown sampleRow2.status) }

/-- A cleaned row with country `"US"`. -/
def c2RowA : CleanRow :=
  { names := "A", date := ⟨2024, 1, 1⟩, score := 0, genre := "g",
    overview := "o", crew := "c", orig_lang := "en", budget := 0, revenue := 0,
    country := "US", status := "S" }

/-- A second cleaned row, distinct natural key. -/
def c2RowB : CleanRow :=
  { c2RowA with names := "B" }

/-- A resolved country map for the two rows above. -/
def cmC2 : RefDict := [("US", ⟨9, "US"⟩)]

/-- A cleaned row whose genre value ends in a trailing comma. -/
def assocRow : CleanRow :=
  { names := "X", date := ⟨2024, 1, 1⟩, score := 0, genre := "Action,",
    overview := "o", crew := "A", orig_lang := "en", budget := 0, revenue := 0,
    country := "US", status := "Released" }

/-- A resolved genre map for `assocRow`. -/
def gmFix : RefDict := [("Action", ⟨3, "Action"⟩)]

/-- A resolved actor map for `assocRow`. -/
def amFix : RefDict := [("A", ⟨4, "A"⟩)]

/-- A resolved language map for `assocRow`. -/
def lmFix : RefDict := [("en", ⟨5, "en"⟩)]

/-- A CSV line whose date does not parse (month 13). -/
def rowBadDate : RawRow :=
  { names := "Bad", date_x := "2024-13-40", score := "50"
    genre := some "Drama", overview := "o3", crew := some "A"
    orig_lang := some "en", budget_x := "1", revenue := "2"
    country := some "US", status := some "Released" }

/-! ### Lemmas: the dict model -/

theorem dictLookup_dictInsert (m : RefDict) (k0 k : String) (v : Row) :
    dictLookup (dictInsert m k0 v) k =
      if k = k0 then some v else dictLookup m k := by
  induction m with
  | nil =>
    by_cases hk : k = k0
    · simp [dictInsert, dictLookup, hk]
    · have hk2 : ¬(k0 = k) := fun h => hk h.symm
      simp [dictInsert, dictLookup, hk, hk2]
  | cons p rest ih =>
    by_cases hp : p.1 = k0
    · by_cases hk : k = k0
      · simp [dictInsert, dictLookup, hp, hk]
      · have hk2 : ¬(k0 = k) := fun h => hk h.symm
        simp [dictInsert, dictLookup, hp, hk, hk2]
    · by_cases hpk : p.1 = k
      · simp [dictInsert, dictLookup, hp, hpk,
          show ¬(k = k0) from fun h => hp (by rw [hpk, h])]
      · simp [dictInsert, dictLookup, hp, hpk, ih]

theorem dictContains_eq_isSome (m : RefDict) (k : String) :
    dictContains m k = (dictLookup m k).isSome := by
  induction m with
  | nil => rfl
  | cons p rest ih =>
    by_cases hp : p.1 = k <;> simp [dictContains, dictLookup, hp, ih]

theorem dictLookup_mem {m : RefDict} {k : String} {r : Row}
    (h : dictLookup m k = some r) : (k, r) ∈ m := by
  induction m with
  | nil => simp [dictLookup] at h
  | cons p rest ih =>
    by_cases hp : p.1 = k
    · simp only [dictLookup, if_pos hp] at h
      cases h
      have hkp : (k, p.2) = p := by
        cases p
        simp_all
      rw [hkp]
      exact List.mem_cons_self _ _
    · simp only [dictLookup, if_neg hp] at h
      exact List.mem_cons_of_mem _ (ih h)

theorem dictLookup_dictMergeRows (rows : List Row) (m : RefDict) (k : String) :
    dictLookup (dictMergeRows m rows) k =
      match (rows.filter (fun r => r.key = k)).getLast? with
      | some x => some x
      | none => dictLookup m k := by
  induction rows generalizing m with
  | nil => simp [dictMergeRows]
  | cons r rest ih =>
    have hstep : dictMergeRows m (r :: rest) =
        dictMergeRows (dictInsert m r.key r) rest := rfl
    rw [hstep, ih]
    by_cases hr : r.key = k
    · subst hr
      cases hfil : rest.filter (fun x => x.key = r.key) with
      | nil =>
        simp [List.filter_cons, hfil, dictLookup_dictInsert]
      | cons x xs =>
        simp [List.filter_cons, hfil, List.getLast?_cons]
    · have hne : ¬(k = r.key) := fun h => hr h.symm
      simp [List.filter_cons, hr, dictLookup_dictInsert, hne]

theorem mem_keys_dictInsert {m : RefDict} {k x : String} {v : Row}
    (h : x ∈ (dictInsert m k v).map Prod.fst) :
    x ∈ m.map Prod.fst ∨ x = k := by
  induction m with
  | nil =>
    right
    simpa [dictInsert] using h
  | cons p rest ih =>
    by_cases hp : p.1 = k
    · simp only [dictInsert, if_pos hp, List.map_cons, List.mem_cons] at h
      rcases h with h | h
      · right; exact h
      · left
        rw [List.map_cons, List.mem_cons]
        right; exact h
    · simp only [dictInsert, if_neg hp, List.map_cons, List.mem_cons] at h
      rcases h with h | h
      · left
        rw [List.map_cons, List.mem_cons]
        left; exact h
      · rcases ih h with h2 | h2
        · left
          rw [List.map_cons, List.mem_cons]
          right; exact h2
        · right; exact h2

theorem dictKeysNodup_dictInsert {m : RefDict} (k : String) (v : Row)
    (h : (m.map Prod.fst).Nodup) : ((dictInsert m k v).map Prod.fst).Nodup := by
  induction m with
  | nil => simp [dictInsert]
  | cons p rest ih =>
    simp only [List.map_cons, List.nodup_cons] at h
    by_cases hp : p.1 = k
    · simp only [dictInsert, if_pos hp, List.map_cons, List.nodup_cons]
      exact ⟨by rw [← hp]; exact h.1, h.2⟩
    · simp only [dictInsert, if_neg hp, List.map_cons, List.nodup_cons]
      refine ⟨fun hmem => ?_, ih h.2⟩
      rcases mem_keys_dictInsert hmem with h2 | h2
      · exact h.1 h2
      · exact hp h2

theorem dictKeysNodup_dictMergeRows (rows : List Row) (m : RefDict)
    (h : (m.map Prod.fst).Nodup) :
    ((dictMergeRows m rows).map Prod.fst).Nodup := by
  induction rows generalizing m with
  | nil => exact h
  | cons r rest ih => exact ih _ (dictKeysNodup_dictInsert r.key r h)

/-! ### Lemmas: chunking -/

theorem flatten_chunksOfAux {α : Type} (n : Nat) (l : List α) :
    ∀ (cur : List α) (k : Nat),
      (chunksOfAux n cur k l).flatten = cur.reverse ++ l := by
  induction l with
  | nil =>
    intro cur k
    cases cur <;> simp [chunksOfAux]
  | cons a t ih =>
    intro cur k
    cases k with
    | zero => simp [chunksOfAux, ih]
    | succ k2 => simp [chunksOfAux, ih]

theorem flatten_chunksOf {α : Type} (n : Nat) (l : List α) :
    (chunksOf n l).flatten = l := by
  simpa using flatten_chunksOfAux n l [] n

/-! ### Lemmas: statements and the session -/

theorem execStmt_committed {α : Type} (f : DB → α × DB) (st : Exec) :
    (execStmt f st).2.sess.committed = st.sess.committed := by
  unfold execStmt
  split <;> rfl

theorem execStmt_faults {α : Type} (f : DB → α × DB) (st : Exec) :
    (execStmt f st).2.faults = st.faults := by
  unfold execStmt
  split <;> rfl

theorem execStmt_sess_readonly {α : Type} (f : DB → α × DB) (st : Exec)
    (h : ∀ db, (f db).2 = db) : (execStmt f st).2.sess = st.sess := by
  unfold execStmt
  split
  · rfl
  · simp [h]

theorem execStmt_ok {α : Type} {f : DB → α × DB} {st : Exec} {a : α} {st2 : Exec}
    (h : execStmt f st = (.ok a, st2)) :
    a = (f st.sess.pending).1 ∧
      st2.sess.pending = (f st.sess.pending).2 ∧
      st2.sess.committed = st.sess.committed ∧ st2.faults = st.faults := by
  unfold execStmt at h
  split at h
  · cases h
  · cases h
    exact ⟨rfl, rfl, rfl, rfl⟩

theorem commitStmt_error_committed {st : Exec} {e : SeedErr} {st2 : Exec}
    (h : commitStmt st = (.error e, st2)) :
    st2.sess.committed = st.sess.committed := by
  unfold commitStmt at h
  split at h
  · cases h; rfl
  · cases h

theorem commitStmt_ok_sess {st : Exec} {st2 : Exec}
    (h : commitStmt st = (.ok (), st2)) :
    st2.sess.committed = st.sess.pending ∧ st2.sess.pending = st.sess.pending := by
  unfold commitStmt at h
  split at h
  · cases h
  · cases h
    exact ⟨rfl, rfl⟩

theorem selectLoop_sess (ref : TableRef) (cs : List (List String))
    (m : RefDict) (st : Exec) :
    (selectLoop ref cs m st).2.sess = st.sess := by
  induction cs generalizing m st with
  | nil => rfl
  | cons c rest ih =>
    unfold selectLoop
    cases hex : execStmt (fun db => ((ref.get db).selectIn c, db)) st with
    | mk r st2 =>
      have hsess : st2.sess = st.sess := by
        have := execStmt_sess_readonly
          (fun db => ((ref.get db).selectIn c, db)) st (fun db => rfl)
        rwa [hex] at this
      cases r with
      | error e => simpa using hsess
      | ok rows => simpa [ih] using hsess

theorem insertLoop_committed (ref : TableRef) (cs : List (List String)) (st : Exec) :
    (insertLoop ref cs st).2.sess.committed = st.sess.committed := by
  induction cs generalizing st with
  | nil => rfl
  | cons c rest ih =>
    unfold insertLoop
    cases hex : execStmt (fun db => ((), ref.set db ((ref.get db).insertKeys c))) st with
    | mk r st2 =>
      have hcom : st2.sess.committed = st.sess.committed := by
        have := execStmt_committed
          (fun db => ((), ref.set db ((ref.get db).insertKeys c))) st
        rwa [hex] at this
      cases r with
      | error e => simpa using hcom
      | ok u => simp [ih, hcom]

theorem get_or_create_bulk_committed (ref : TableRef) (items : List String) (st : Exec) :
    (get_or_create_bulk ref items st).2.sess.committed = st.sess.committed := by
  unfold get_or_create_bulk
  cases hsel : selectLoop ref (chunksOf CHUNK_SIZE items) [] st with
  | mk r st2 =>
    have hsess : st2.sess = st.sess := by
      have := selectLoop_sess ref (chunksOf CHUNK_SIZE items) [] st
      rwa [hsel] at this
    cases r with
    | error e => simp [hsess]
    | ok m =>
      simp only []
      split
      · simp [hsess]
      · cases hins : insertLoop ref
          (chunksOf CHUNK_SIZE (items.filter (fun it => !dictContains m it))) st2 with
        | mk r2 st3 =>
          have hcom : st3.sess.committed = st2.sess.committed := by
            have := insertLoop_committed ref
              (chunksOf CHUNK_SIZE (items.filter (fun it => !dictContains m it))) st2
            rwa [hins] at this
          cases r2 with
          | error e => simp [hcom, hsess]
          | ok u =>
            have hsess3 := selectLoop_sess ref
              (chunksOf CHUNK_SIZE (items.filter (fun it => !dictContains m it))) m st3
            simp [hsess3, hcom, hsess]

theorem fetchIds_sess (ms : List MovieIns) (st : Exec) :
    (fetchIds ms st).2.sess = st.sess := by
  induction ms generalizing st with
  | nil => rfl
  | cons movie rest ih =>
    unfold fetchIds
    cases hex : execStmt
        (fun db => (db.movies.selectIdByKey movie.name movie.date, db)) st with
    | mk r st2 =>
      have hsess : st2.sess = st.sess := by
        have := execStmt_sess_readonly
          (fun db => (db.movies.selectIdByKey movie.name movie.date, db)) st
          (fun db => rfl)
        rwa [hex] at this
      cases r with
      | error e => simpa using hsess
      | ok ids =>
        match ids with
        | [] => simpa using hsess
        | [i] =>
          cases hrec : fetchIds rest st2 with
          | mk r2 st3 =>
            have hsess3 : st3.sess = st2.sess := by
              have := ih st2
              rwa [hrec] at this
            cases r2 <;> simp [hrec, hsess3, hsess]
        | i :: j :: l => simpa using hsess

theorem insertMoviesChunks_committed (cs : List (List MovieIns)) (st : Exec) :
    (insertMoviesChunks cs st).2.sess.committed = st.sess.committed := by
  induction cs generalizing st with
  | nil => rfl
  | cons chunk rest ih =>
    unfold insertMoviesChunks
    cases hex : execStmt
        (fun db => ((), { db with movies := db.movies.insertMovies chunk })) st with
    | mk r st2 =>
      have hcom : st2.sess.committed = st.sess.committed := by
        have := execStmt_committed
          (fun db => ((), { db with movies := db.movies.insertMovies chunk })) st
        rwa [hex] at this
      cases r with
      | error e => simpa using hcom
      | ok u =>
        cases hfetch : fetchIds chunk st2 with
        | mk r2 st3 =>
          have hsess3 : st3.sess = st2.sess := by
            have := fetchIds_sess chunk st2
            rwa [hfetch] at this
          cases r2 with
          | error e => simp [hfetch, hsess3, hcom]
          | ok ids =>
            cases hrec : insertMoviesChunks rest st3 with
            | mk r3 st4 =>
              have hcom4 : st4.sess.committed = st3.sess.committed := by
                have := ih st3
                rwa [hrec] at this
              cases r3 <;> simp [hfetch, hrec, hcom4, hsess3, hcom]

theorem bulk_insert_committed (ref : AssocRef) (cs : List (List Assoc)) (st : Exec) :
    (bulk_insert ref cs st).2.sess.committed = st.sess.committed := by
  induction cs generalizing st with
  | nil => rfl
  | cons chunk rest ih =>
    unfold bulk_insert
    cases hex : execStmt (fun db => ((), ref.set db (ref.get db ++ chunk))) st with
    | mk r st2 =>
      have hcom : st2.sess.committed = st.sess.committed := by
        have := execStmt_committed (fun db => ((), ref.set db (ref.get db ++ chunk))) st
        rwa [hex] at this
      cases r with
      | error e => simpa using hcom
      | ok u => simp [ih, hcom]

theorem seed_user_groups_committed (st : Exec) :
    (seed_user_groups st).2.sess.committed = st.sess.committed := by
  unfold seed_user_groups
  cases hex : execStmt (fun db => (db.userGroups.length, db)) st with
  | mk r st2 =>
    have hcom : st2.sess.committed = st.sess.committed := by
      have := execStmt_committed (fun db => (db.userGroups.length, db)) st
      rwa [hex] at this
    cases r with
    | error e => simpa using hcom
    | ok n =>
      by_cases hn : n = 0
      · simp only [hn, if_pos rfl]
        cases hex2 : execStmt
            (fun db => ((), { db with userGroups := db.userGroups ++ userGroupNames })) st2 with
        | mk r2 st3 =>
          have hcom3 : st3.sess.committed = st2.sess.committed := by
            have := execStmt_committed
              (fun db => ((), { db with userGroups := db.userGroups ++ userGroupNames })) st2
            rwa [hex2] at this
          cases r2 <;> simp [hcom3, hcom]
      · simp [hn, hcom]

theorem prepare_reference_data_committed (data : List CleanRow) (st : Exec) :
    (prepare_reference_data data st).2.sess.committed = st.sess.committed := by
  unfold prepare_reference_data
  cases h1 : get_or_create_bulk countriesRef (referenceItems data).1 st with
  | mk r1 st1 =>
    have hc1 : st1.sess.committed = st.sess.committed := by
      have := get_or_create_bulk_committed countriesRef (referenceItems data).1 st
      rwa [h1] at this
    cases r1 with
    | error e => simp [h1, hc1]
    | ok cm =>
      cases h2 : get_or_create_bulk genresRef (referenceItems data).2.1 st1 with
      | mk r2 st2 =>
        have hc2 : st2.sess.committed = st1.sess.committed := by
          have := get_or_create_bulk_committed genresRef (referenceItems data).2.1 st1
          rwa [h2] at this
        cases r2 with
        | error e => simp [h1, h2, hc2, hc1]
        | ok gm =>
          cases h3 : get_or_create_bulk actorsRef (referenceItems data).2.2.1 st2 with
          | mk r3 st3 =>
            have hc3 : st3.sess.committed = st2.sess.committed := by
              have := get_or_create_bulk_committed actorsRef (referenceItems data).2.2.1 st2
              rwa [h3] at this
            cases r3 with
            | error e => simp [h1, h2, h3, hc3, hc2, hc1]
            | ok am =>
              cases h4 : get_or_create_bulk languagesRef (referenceItems data).2.2.2 st3 with
              | mk r4 st4 =>
                have hc4 : st4.sess.committed = st3.sess.committed := by
                  have := get_or_create_bulk_committed languagesRef
                    (referenceItems data).2.2.2 st3
                  rwa [h4] at this
                cases r4 <;> simp [h1, h2, h3, h4, hc4, hc3, hc2, hc1]

theorem seed_committed_spec (csv : List RawRow) (st : Exec) :
    (∀ e, (seed csv st).1 = .error e →
        (seed csv st).2.sess.committed = st.sess.committed) ∧
    ((seed csv st).1 = .ok () →
        (seed csv st).2.sess.committed = (seed csv st).2.sess.pending) := by
  cases hseed : seed csv st with
  | mk r stF =>
    simp only []
    unfold seed at hseed
    simp only [] at hseed
    set st0 := if st.sess.pending ≠ st.sess.committed
      then { st with sess := { st.sess with pending := st.sess.committed } }
      else st with hst0
    have hc0 : st0.sess.committed = st.sess.committed := by
      rw [hst0]
      split <;> rfl
    clear hst0
    cases hug : seed_user_groups st0 with
    | mk r1 st1 =>
      rw [hug] at hseed
      have hc1 : st1.sess.committed = st0.sess.committed := by
        have := seed_user_groups_committed st0
        rwa [hug] at this
      cases r1 with
      | error e1 =>
        simp only [] at hseed
        cases hseed
        constructor
        · intro e he
          rw [hc1, hc0]
        · intro he
          cases he
      | ok u1 =>
        simp only [] at hseed
        cases hpr : prepare_reference_data (preprocess_csv csv).1 st1 with
        | mk r2 st2 =>
          rw [hpr] at hseed
          have hc2 : st2.sess.committed = st1.sess.committed := by
            have := prepare_reference_data_committed (preprocess_csv csv).1 st1
            rwa [hpr] at this
          cases r2 with
          | error e2 =>
            simp only [] at hseed
            cases hseed
            constructor
            · intro e he
              rw [hc2, hc1, hc0]
            · intro he
              cases he
          | ok maps =>
            simp only [] at hseed
            obtain ⟨cm, gm, am, lm⟩ := maps
            cases hpm : prepare_movies_data (preprocess_csv csv).1 cm with
            | none =>
              rw [hpm] at hseed
              simp only [] at hseed
              cases hseed
              constructor
              · intro e he
                rw [hc2, hc1, hc0]
              · intro he
                cases he
            | some movies_data =>
              rw [hpm] at hseed
              simp only [] at hseed
              cases hins : insertMoviesChunks (chunksOf CHUNK_SIZE movies_data) st2 with
              | mk r3 st3 =>
                rw [hins] at hseed
                have hc3 : st3.sess.committed = st2.sess.committed := by
                  have := insertMoviesChunks_committed (chunksOf CHUNK_SIZE movies_data) st2
                  rwa [hins] at this
                cases r3 with
                | error e3 =>
                  simp only [] at hseed
                  cases hseed
                  constructor
                  · intro e he
                    rw [hc3, hc2, hc1, hc0]
                  · intro he
                    cases he
                | ok movie_ids =>
                  simp only [] at hseed
                  cases hpa : prepare_associations (preprocess_csv csv).1 movie_ids gm am lm with
                  | none =>
                    rw [hpa] at hseed
                    simp only [] at hseed
                    cases hseed
                    constructor
                    · intro e he
                      rw [hc3, hc2, hc1, hc0]
                    · intro he
                      cases he
                  | some assocs =>
                    obtain ⟨mg, ma, ml⟩ := assocs
                    rw [hpa] at hseed
                    simp only [] at hseed
                    cases hb1 : bulk_insert movieGenresRef (chunksOf CHUNK_SIZE mg) st3 with
                    | mk r4 st4 =>
                      rw [hb1] at hseed
                      have hc4 : st4.sess.committed = st3.sess.committed := by
                        have := bulk_insert_committed movieGenresRef (chunksOf CHUNK_SIZE mg) st3
                        rwa [hb1] at this
                      cases r4 with
                      | error e4 =>
                        simp only [] at hseed
                        cases hseed
                        constructor
                        · intro e he
                          rw [hc4, hc3, hc2, hc1, hc0]
                        · intro he
                          cases he
                      | ok u4 =>
                        simp only [] at hseed
                        cases hb2 : bulk_insert movieActorsRef (chunksOf CHUNK_SIZE ma) st4 with
                        | mk r5 st5 =>
                          rw [hb2] at hseed
                          have hc5 : st5.sess.committed = st4.sess.committed := by
                            have := bulk_insert_committed movieActorsRef (chunksOf CHUNK_SIZE ma) st4
                            rwa [hb2] at this
                          cases r5 with
                          | error e5 =>
                            simp only [] at hseed
                            cases hseed
                            constructor
                            · intro e he
                              rw [hc5, hc4, hc3, hc2, hc1, hc0]
                            · intro he
                              cases he
                          | ok u5 =>
                            simp only [] at hseed
                            cases hb3 : bulk_insert movieLanguagesRef (chunksOf CHUNK_SIZE ml) st5 with
                            | mk r6 st6 =>
                              rw [hb3] at hseed
                              have hc6 : st6.sess.committed = st5.sess.committed := by
                                have := bulk_insert_committed movieLanguagesRef
                                  (chunksOf CHUNK_SIZE ml) st5
                                rwa [hb3] at this
                              cases r6 with
                              | error e6 =>
                                simp only [] at hseed
                                cases hseed
                                constructor
                                · intro e he
                                  rw [hc6, hc5, hc4, hc3, hc2, hc1, hc0]
                                · intro he
                                  cases he
                              | ok u6 =>
                                simp only [] at hseed
                                cases hcm : commitStmt st6 with
                                | mk r7 st7 =>
                                  rw [hcm] at hseed
                                  cases hseed
                                  cases r with
                                  | error e7 =>
                                    constructor
                                    · intro e he
                                      rw [commitStmt_error_committed hcm,
                                        hc6, hc5, hc4, hc3, hc2, hc1, hc0]
                                    · intro he
                                      cases he
                                  | ok u7 =>
                                    constructor
                                    · intro e he
                                      cases he
                                    · intro he
                                      obtain ⟨ha, hb⟩ := commitStmt_ok_sess hcm
                                      rw [ha, hb]

theorem mainRun_populated_sess (csv : List RawRow) (st : Exec)
    (hfresh : st.sess.pending = st.sess.committed)
    (hpop : st.sess.committed.movies.rows ≠ []) :
    (mainRun csv st).2.sess = st.sess := by
  unfold mainRun
  cases hp : is_db_populated st with
  | mk r st2 =>
    have hp2 := hp
    unfold is_db_populated at hp2
    have hsess : st2.sess = st.sess := by
      have h2 := execStmt_sess_readonly
        (fun db => (!db.movies.rows.isEmpty, db)) st (fun db => rfl)
      rwa [hp2] at h2
    cases r with
    | error e => simpa using hsess
    | ok b =>
      have hb : b = !st.sess.pending.movies.rows.isEmpty := (execStmt_ok hp2).1
      have hbt : b = true := by
        rw [hb, hfresh]
        simpa [List.isEmpty_iff] using hpop
      subst hbt
      simpa using hsess

/-! ### Lemmas: `_get_or_create_bulk` -/

theorem filter_filter_key (l : List Row) (c : List String) (k : String) :
    (l.filter (fun r => r.key ∈ c)).filter (fun r => r.key = k) =
      if k ∈ c then l.filter (fun r => r.key = k) else [] := by
  induction l with
  | nil => simp
  | cons r rest ih =>
    by_cases hk : r.key = k
    · by_cases hc : k ∈ c
      · simp [List.filter_cons, hk, hc, ih]
      · simp [List.filter_cons, hk, hc, ih]
    · by_cases hc2 : r.key ∈ c
      · simp [List.filter_cons, hk, hc2, ih]
      · simp [List.filter_cons, hk, hc2, ih]

theorem selectLoop_ok_lookup (ref : TableRef) (cs : List (List String))
    (m : RefDict) (st : Exec) {m2 : RefDict} {st2 : Exec}
    (h : selectLoop ref cs m st = (.ok m2, st2)) (k : String) :
    dictLookup m2 k =
      if k ∈ cs.flatten then
        match (ref.get st.sess.pending).lastWithKey k with
        | some x => some x
        | none => dictLookup m k
      else dictLookup m k := by
  induction cs generalizing m st with
  | nil =>
    unfold selectLoop at h
    cases h
    simp
  | cons c rest ih =>
    unfold selectLoop at h
    cases hex : execStmt (fun db => ((ref.get db).selectIn c, db)) st with
    | mk r1 stA =>
      rw [hex] at h
      cases r1 with
      | error e => cases h
      | ok rows =>
        obtain ⟨hrows, hpend, hcomm, hfaults⟩ := execStmt_ok hex
        have hmerge : dictLookup (dictMergeRows m rows) k =
            if k ∈ c then
              match (ref.get st.sess.pending).lastWithKey k with
              | some x => some x
              | none => dictLookup m k
            else dictLookup m k := by
          rw [dictLookup_dictMergeRows, hrows]
          show (match ((((ref.get st.sess.pending).selectIn c).filter
              (fun r => r.key = k)).getLast?) with
            | some x => some x
            | none => dictLookup m k) = _
          rw [show ((ref.get st.sess.pending).selectIn c).filter
              (fun r => r.key = k) =
              if k ∈ c then (ref.get st.sess.pending).rows.filter
                (fun r => r.key = k) else []
            from filter_filter_key _ c k]
          by_cases hc : k ∈ c
          · simp only [if_pos hc]
            rfl
          · simp [hc]
        have ihh := ih (dictMergeRows m rows) stA h
        rw [hpend] at ihh
        rw [ihh]
        by_cases hfl : k ∈ rest.flatten
        · by_cases hc : k ∈ c
          · cases hlw : (ref.get st.sess.pending).lastWithKey k with
            | none => simp [hfl, hc, hmerge, hlw]
            | some x => simp [hfl, hc, hmerge, hlw]
          · cases hlw : (ref.get st.sess.pending).lastWithKey k with
            | none => simp [hfl, hc, hmerge, hlw]
            | some x => simp [hfl, hc, hmerge, hlw]
        · by_cases hc : k ∈ c
          · simp [hfl, hc, hmerge]
          · simp [hfl, hc, hmerge]

theorem selectLoop_ok_keysNodup (ref : TableRef) (cs : List (List String))
    (m : RefDict) (st : Exec) {m2 : RefDict} {st2 : Exec}
    (h : selectLoop ref cs m st = (.ok m2, st2))
    (hm : (m.map Prod.fst).Nodup) : (m2.map Prod.fst).Nodup := by
  induction cs generalizing m st with
  | nil =>
    unfold selectLoop at h
    cases h
    exact hm
  | cons c rest ih =>
    unfold selectLoop at h
    cases hex : execStmt (fun db => ((ref.get db).selectIn c, db)) st with
    | mk r1 stA =>
      rw [hex] at h
      cases r1 with
      | error e => cases h
      | ok rows =>
        exact ih (dictMergeRows m rows) stA h
          (dictKeysNodup_dictMergeRows rows m hm)

theorem rowsFrom_filter_not_mem (n : Nat) (ks : List String) (k : String)
    (h : k ∉ ks) : (rowsFrom n ks).filter (fun r => r.key = k) = [] := by
  induction ks generalizing n with
  | nil => rfl
  | cons a rest ih =>
    have ha : ¬(a = k) := fun hc => h (by rw [hc]; exact List.mem_cons_self _ _)
    simp only [rowsFrom, List.filter_cons]
    simp [ha, ih (n + 1) (fun hc => h (List.mem_cons_of_mem _ hc))]

theorem rowsFrom_filter_mem (n : Nat) (ks : List String) (k : String)
    (h : k ∈ ks) : (rowsFrom n ks).filter (fun r => r.key = k) ≠ [] := by
  induction ks generalizing n with
  | nil => cases h
  | cons a rest ih =>
    by_cases ha : a = k
    · simp [rowsFrom, List.filter_cons, ha]
    · have hrest : k ∈ rest := by
        cases h with
        | head => exact absurd rfl ha
        | tail _ hmem => exact hmem
      have hih := ih (n + 1) hrest
      simpa [rowsFrom, List.filter_cons, ha] using hih

theorem getLast?_append_right {α : Type} (a b : List α) (hb : b ≠ []) :
    (a ++ b).getLast? = b.getLast? := by
  induction a with
  | nil => rfl
  | cons x rest ih =>
    cases hr : rest ++ b with
    | nil =>
      exact absurd (List.append_eq_nil.mp hr).2 hb
    | cons y l =>
      rw [List.cons_append, hr, List.getLast?_cons_cons, ← hr, ih]

theorem lastWithKey_insertKeys_not_mem (t : Table) (ks : List String)
    (k : String) (h : k ∉ ks) :
    (t.insertKeys ks).lastWithKey k = t.lastWithKey k := by
  unfold Table.insertKeys Table.lastWithKey
  simp only [List.filter_append, rowsFrom_filter_not_mem t.nextId ks k h,
    List.append_nil]

theorem lastWithKey_insertKeys_mem (t : Table) (ks : List String)
    (k : String) (h : k ∈ ks) :
    (t.insertKeys ks).lastWithKey k ≠ none := by
  unfold Table.insertKeys Table.lastWithKey
  simp only [List.filter_append]
  rw [getLast?_append_right _ _ (rowsFrom_filter_mem t.nextId ks k h)]
  intro hcon
  rw [List.getLast?_eq_none_iff] at hcon
  exact rowsFrom_filter_mem t.nextId ks k h hcon

theorem insertKeys_nil (t : Table) : t.insertKeys [] = t := by
  cases t with
  | mk n rows => simp [Table.insertKeys, rowsFrom]

theorem rowsFrom_append (n : Nat) (a b : List String) :
    rowsFrom n (a ++ b) = rowsFrom n a ++ rowsFrom (n + a.length) b := by
  induction a generalizing n with
  | nil => simp [rowsFrom]
  | cons x rest ih =>
    simp only [List.cons_append, rowsFrom, List.length_cons, List.append_eq]
    rw [ih (n + 1), show n + (rest.length + 1) = n + 1 + rest.length by omega]

theorem insertKeys_append (t : Table) (a b : List String) :
    (t.insertKeys a).insertKeys b = t.insertKeys (a ++ b) := by
  cases t with
  | mk n rows =>
    simp [Table.insertKeys, rowsFrom_append, List.append_assoc]
    omega

theorem insertLoop_ok_table (ref : TableRef)
    (href : ∀ db t, ref.get (ref.set db t) = t)
    (cs : List (List String)) (st : Exec) {st2 : Exec} {u : Unit}
    (h : insertLoop ref cs st = (.ok u, st2)) :
    ref.get st2.sess.pending =
      (ref.get st.sess.pending).insertKeys cs.flatten := by
  induction cs generalizing st with
  | nil =>
    unfold insertLoop at h
    cases h
    simp [insertKeys_nil]
  | cons c rest ih =>
    unfold insertLoop at h
    cases hex : execStmt
        (fun db => ((), ref.set db ((ref.get db).insertKeys c))) st with
    | mk r1 stA =>
      rw [hex] at h
      cases r1 with
      | error e => cases h
      | ok u1 =>
        obtain ⟨hval, hpend, hcomm, hfaults⟩ := execStmt_ok hex
        have hA : ref.get stA.sess.pending =
            (ref.get st.sess.pending).insertKeys c := by
          rw [hpend]
          exact href _ _
        rw [ih stA h, hA, insertKeys_append, List.flatten_cons]

end Populate

namespace Populate

theorem get_or_create_bulk_ok_spec (ref : TableRef)
    (href : ∀ db t, ref.get (ref.set db t) = t)
    (items : List String) (st : Exec) {m : RefDict} {st2 : Exec}
    (h : get_or_create_bulk ref items st = (.ok m, st2)) :
    (∃ fresh : List String,
        (∀ x, x ∈ fresh → x ∈ items) ∧
        ref.get st2.sess.pending = (ref.get st.sess.pending).insertKeys fresh) ∧
    (∀ k, k ∈ items →
        dictLookup m k = (ref.get st2.sess.pending).lastWithKey k ∧
        (ref.get st2.sess.pending).lastWithKey k ≠ none) ∧
    (∀ k, k ∉ items → dictLookup m k = none) ∧
    (m.map Prod.fst).Nodup := by
  unfold get_or_create_bulk at h
  cases hsel : selectLoop ref (chunksOf CHUNK_SIZE items) [] st with
  | mk r1 stA =>
    rw [hsel] at h
    cases r1 with
    | error e => cases h
    | ok d1 =>
      have hsessA : stA.sess = st.sess := by
        have := selectLoop_sess ref (chunksOf CHUNK_SIZE items) [] st
        rwa [hsel] at this
      have hd1 : ∀ k, dictLookup d1 k =
          if k ∈ items then (ref.get st.sess.pending).lastWithKey k
          else none := by
        intro k
        have hl := selectLoop_ok_lookup ref (chunksOf CHUNK_SIZE items) [] st hsel k
        rw [flatten_chunksOf] at hl
        by_cases hk : k ∈ items
        · rw [hl]
          cases hlw : (ref.get st.sess.pending).lastWithKey k <;>
            simp [hk, hlw, dictLookup]
        · rw [hl]
          simp [hk, dictLookup]
      have hnd1 : (d1.map Prod.fst).Nodup :=
        selectLoop_ok_keysNodup ref (chunksOf CHUNK_SIZE items) [] st hsel
          (by simp)
      simp only [] at h
      by_cases hni : (items.filter (fun it => !dictContains d1 it)).isEmpty
      · rw [if_pos hni] at h
        cases h
        have hcontains : ∀ k, k ∈ items → dictContains m k = true := by
          intro k hk
          by_contra hc
          have hmem : k ∈ items.filter (fun it => !dictContains m it) := by
            rw [List.mem_filter]
            exact ⟨hk, by simp [Bool.eq_false_iff.mpr hc]⟩
          rw [List.isEmpty_iff] at hni
          rw [hni] at hmem
          cases hmem
        refine ⟨⟨[], by simp, by rw [insertKeys_nil, hsessA]⟩, ?_, ?_, hnd1⟩
        · intro k hk
          have hsome : (dictLookup m k).isSome := by
            rw [← dictContains_eq_isSome]
            exact hcontains k hk
          rw [hd1 k, if_pos hk] at hsome ⊢
          constructor
          · rw [hsessA]
          · rw [hsessA]
            intro hcon
            rw [hcon] at hsome
            cases hsome
        · intro k hk
          rw [hd1 k, if_neg hk]
      · rw [if_neg hni] at h
        cases hins : insertLoop ref
            (chunksOf CHUNK_SIZE (items.filter (fun it => !dictContains d1 it)))
            stA with
        | mk r2 stB =>
          rw [hins] at h
          cases r2 with
          | error e => cases h
          | ok u2 =>
            simp only [] at h
            set new_items := items.filter (fun it => !dictContains d1 it)
              with hnew
            have htB : ref.get stB.sess.pending =
                (ref.get st.sess.pending).insertKeys new_items := by
              have := insertLoop_ok_table ref href
                (chunksOf CHUNK_SIZE new_items) stA hins
              rw [flatten_chunksOf, hsessA] at this
              exact this
            have hsessB : st2.sess = stB.sess := by
              have := selectLoop_sess ref (chunksOf CHUNK_SIZE new_items) d1 stB
              rwa [h] at this
            have hm : ∀ k, dictLookup m k =
                if k ∈ new_items then
                  match (ref.get stB.sess.pending).lastWithKey k with
                  | some x => some x
                  | none => dictLookup d1 k
                else dictLookup d1 k := by
              intro k
              have := selectLoop_ok_lookup ref (chunksOf CHUNK_SIZE new_items)
                d1 stB h k
              rwa [flatten_chunksOf] at this
            have hndm : (m.map Prod.fst).Nodup :=
              selectLoop_ok_keysNodup ref (chunksOf CHUNK_SIZE new_items)
                d1 stB h hnd1
            have htbl2 : ref.get st2.sess.pending =
                (ref.get st.sess.pending).insertKeys new_items := by
              rw [hsessB, htB]
            refine ⟨⟨new_items, ?_, htbl2⟩, ?_, ?_, hndm⟩
            · intro x hx
              exact (List.mem_filter.mp hx).1
            · intro k hk
              by_cases hkn : k ∈ new_items
              · have hne := lastWithKey_insertKeys_mem
                  (ref.get st.sess.pending) new_items k hkn
                rw [htbl2]
                cases hlw : ((ref.get st.sess.pending).insertKeys
                    new_items).lastWithKey k with
                | none => exact absurd hlw hne
                | some x =>
                  constructor
                  · rw [hm k, if_pos hkn, htB, hlw]
                  · simp
              · have hcont : dictContains d1 k = true := by
                  by_contra hc
                  exact hkn (List.mem_filter.mpr
                    ⟨hk, by simp [Bool.eq_false_iff.mpr hc]⟩)
                have hsome : (dictLookup d1 k).isSome := by
                  rw [← dictContains_eq_isSome]
                  exact hcont
                rw [hd1 k, if_pos hk] at hsome
                have hlw0 : (ref.get st.sess.pending).lastWithKey k ≠ none := by
                  intro hcon
                  rw [hcon] at hsome
                  cases hsome
                rw [htbl2,
                  lastWithKey_insertKeys_not_mem (ref.get st.sess.pending)
                    new_items k hkn]
                constructor
                · rw [hm k, if_neg hkn, hd1 k, if_pos hk]
                · exact hlw0
            · intro k hk
              have hkn : k ∉ new_items := fun hc =>
                hk (List.mem_filter.mp hc).1
              rw [hm k, if_neg hkn, hd1 k, if_neg hk]

theorem phase1_lookup (ref : TableRef) (items : List String) (st : Exec)
    {d : RefDict} {stS : Exec}
    (h : selectLoop ref (chunksOf CHUNK_SIZE items) [] st = (.ok d, stS)) :
    ∀ k, dictLookup d k =
      if k ∈ items then (ref.get st.sess.pending).lastWithKey k else none := by
  intro k
  have hl := selectLoop_ok_lookup ref (chunksOf CHUNK_SIZE items) [] st h k
  rw [flatten_chunksOf] at hl
  by_cases hk : k ∈ items
  · rw [hl]
    cases hlw : (ref.get st.sess.pending).lastWithKey k <;>
      simp [hk, hlw, dictLookup]
  · rw [hl]
    simp [hk, dictLookup]

theorem mem_of_getLast?_eq_some {α : Type} {l : List α} {a : α}
    (h : l.getLast? = some a) : a ∈ l := by
  cases l with
  | nil => cases h
  | cons x xs =>
    have hg := List.getLast?_eq_getLast (x :: xs) (by simp)
    rw [hg] at h
    cases h
    exact List.getLast_mem _

theorem lastWithKey_some_spec {t : Table} {k : String} {r : Row}
    (h : t.lastWithKey k = some r) : r.key = k ∧ r ∈ t.rows := by
  unfold Table.lastWithKey at h
  have hmem := mem_of_getLast?_eq_some h
  rw [List.mem_filter] at hmem
  exact ⟨by simpa using hmem.2, hmem.1⟩

theorem mem_keys_of_lookup_some {m : RefDict} {k : String} {r : Row}
    (h : dictLookup m k = some r) : k ∈ m.map Prod.fst := by
  have := dictLookup_mem h
  exact List.mem_map.mpr ⟨(k, r), this, rfl⟩

/-! ### Lemmas: preprocessing -/

theorem cleanRow_eq_none_iff (r : RawRow) :
    cleanRow r = none ↔ parseDate r.date_x = none := by
  unfold cleanRow
  cases parseDate r.date_x <;> simp

theorem filterMap_cleanRow_length (l : List RawRow) :
    (l.filterMap cleanRow).length +
      (l.filter (fun r => parseDate r.date_x = none)).length = l.length := by
  induction l with
  | nil => rfl
  | cons r rest ih =>
    by_cases hd : parseDate r.date_x = none
    · have hcr : cleanRow r = none := (cleanRow_eq_none_iff r).mpr hd
      simp only [List.filterMap_cons, hcr, List.filter_cons, hd]
      simp
      omega
    · have hcr : cleanRow r ≠ none := fun hc =>
        hd ((cleanRow_eq_none_iff r).mp hc)
      cases hc : cleanRow r with
      | none => exact absurd hc hcr
      | some c =>
        simp only [List.filterMap_cons, hc, List.filter_cons, hd]
        simp
        omega

/-! ### Lemmas: the crew transform -/

theorem string_data_append (a b : String) : (a ++ b).data = a.data ++ b.data := by
  cases a
  cases b
  rfl

theorem splitCharAux_filter_np (l : List Char) :
    ∀ cur : List Char,
      splitCharAux ',' (cur.filter (fun c => !pyIsSpace c))
          (l.filter (fun c => !pyIsSpace c)) =
        (splitCharAux ',' cur l).map
          (fun t => t.filter (fun c => !pyIsSpace c)) := by
  induction l with
  | nil =>
    intro cur
    simp [splitCharAux, List.filter_reverse]
  | cons c cs ih =>
    intro cur
    by_cases hsp : pyIsSpace c
    · have hnc : ¬(c = ',') := by
        intro hc
        rw [hc] at hsp
        exact absurd hsp (by decide)
      have hfc : (c :: cs).filter (fun c => !pyIsSpace c) =
          cs.filter (fun c => !pyIsSpace c) := by
        simp [List.filter_cons, hsp]
      rw [hfc]
      have hcur : ((c :: cur).filter (fun c => !pyIsSpace c)) =
          cur.filter (fun c => !pyIsSpace c) := by
        simp [List.filter_cons, hsp]
      rw [show splitCharAux ',' cur (c :: cs) =
          splitCharAux ',' (c :: cur) cs by simp [splitCharAux, hnc]]
      rw [← hcur]
      exact ih (c :: cur)
    · have hfc : (c :: cs).filter (fun c => !pyIsSpace c) =
          c :: cs.filter (fun c => !pyIsSpace c) := by
        simp [List.filter_cons, hsp]
      rw [hfc]
      by_cases hc : c = ','
      · subst hc
        rw [show splitCharAux ',' (cur.filter (fun c => !pyIsSpace c))
              (',' :: cs.filter (fun c => !pyIsSpace c)) =
            (cur.filter (fun c => !pyIsSpace c)).reverse ::
              splitCharAux ',' [] (cs.filter (fun c => !pyIsSpace c))
          by simp [splitCharAux]]
        rw [show splitCharAux ',' cur (',' :: cs) =
            cur.reverse :: splitCharAux ',' [] cs by simp [splitCharAux]]
        rw [show ([] : List Char) = [].filter (fun c => !pyIsSpace c) from rfl]
        rw [ih []]
        simp [List.filter_reverse]
      · rw [show splitCharAux ',' (cur.filter (fun c => !pyIsSpace c))
              (c :: cs.filter (fun c => !pyIsSpace c)) =
            splitCharAux ',' (c :: cur.filter (fun c => !pyIsSpace c))
              (cs.filter (fun c => !pyIsSpace c)) by simp [splitCharAux, hc]]
        rw [show splitCharAux ',' cur (c :: cs) =
            splitCharAux ',' (c :: cur) cs by simp [splitCharAux, hc]]
        rw [show c :: cur.filter (fun c => !pyIsSpace c) =
            (c :: cur).filter (fun c => !pyIsSpace c) by
          simp [List.filter_cons, hsp]]
        exact ih (c :: cur)

theorem splitComma_removeWS (s : String) :
    splitComma (removeWS s) = (splitComma s).map removeWS := by
  show (splitCharAux ',' [] ((removeWS s).data)).map
      (fun l => (⟨l⟩ : String)) = _
  have h1 : (removeWS s).data = s.data.filter (fun c => !pyIsSpace c) := rfl
  rw [h1]
  have h2 := splitCharAux_filter_np s.data []
  simp only [List.filter_nil] at h2
  rw [h2, List.map_map]
  show _ = (List.map (fun l => (⟨l⟩ : String))
      (splitCharAux ',' [] s.data)).map removeWS
  rw [List.map_map]
  rfl

theorem splitCharAux_chars (sep : Char) (l : List Char) :
    ∀ (cur t : List Char) (ch : Char),
      t ∈ splitCharAux sep cur l → ch ∈ t → ch ∈ cur ∨ ch ∈ l := by
  induction l with
  | nil =>
    intro cur t ch ht hch
    simp only [splitCharAux, List.mem_singleton] at ht
    subst ht
    left
    exact List.mem_reverse.mp hch
  | cons c cs ih =>
    intro cur t ch ht hch
    by_cases hc : c = sep
    · simp only [splitCharAux, if_pos hc, List.mem_cons] at ht
      rcases ht with ht | ht
      · subst ht
        left
        exact List.mem_reverse.mp hch
      · rcases ih [] t ch ht hch with h0 | h0
        · cases h0
        · right
          exact List.mem_cons_of_mem _ h0
    · simp only [splitCharAux, if_neg hc] at ht
      rcases ih (c :: cur) t ch ht hch with h0 | h0
      · rcases List.mem_cons.mp h0 with h1 | h1
        · right
          rw [h1]
          exact List.mem_cons_self _ _
        · left
          exact h1
      · right
        exact List.mem_cons_of_mem _ h0

theorem joinComma_chars (ts : List String) (ch : Char)
    (h : ch ∈ (joinComma ts).data) : ch = ',' ∨ ∃ t ∈ ts, ch ∈ t.data := by
  induction ts with
  | nil => cases h
  | cons t rest ih =>
    cases rest with
    | nil =>
      right
      exact ⟨t, List.mem_singleton.mpr rfl, h⟩
    | cons t2 rest2 =>
      have hJ : joinComma (t :: t2 :: rest2) =
          t ++ "," ++ joinComma (t2 :: rest2) := rfl
      rw [hJ, string_data_append, string_data_append] at h
      rcases List.mem_append.mp h with h1 | h1
      · rcases List.mem_append.mp h1 with h2 | h2
        · right
          exact ⟨t, List.mem_cons_self _ _, h2⟩
        · left
          simpa using h2
      · rcases ih h1 with h2 | ⟨t3, ht3, hch3⟩
        · left
          exact h2
        · right
          exact ⟨t3, List.mem_cons_of_mem _ ht3, hch3⟩

theorem mem_insertSorted {x a : String} :
    ∀ {l : List String}, x ∈ insertSorted a l → x = a ∨ x ∈ l := by
  intro l
  induction l with
  | nil =>
    intro h
    left
    simpa [insertSorted] using h
  | cons b rest ih =>
    intro h
    by_cases hle : strLe a b
    · simp only [insertSorted, if_pos hle, List.mem_cons] at h
      rcases h with h | h | h
      · left; exact h
      · right; rw [h]; exact List.mem_cons_self _ _
      · right; exact List.mem_cons_of_mem _ h
    · simp only [insertSorted, if_neg hle, List.mem_cons] at h
      rcases h with h | h
      · right; rw [h]; exact List.mem_cons_self _ _
      · rcases ih h with h2 | h2
        · left; exact h2
        · right; exact List.mem_cons_of_mem _ h2

theorem mem_sortStrings {x : String} :
    ∀ {l : List String}, x ∈ sortStrings l → x ∈ l := by
  intro l
  induction l with
  | nil => intro h; cases h
  | cons a rest ih =>
    intro h
    rcases mem_insertSorted h with h2 | h2
    · rw [h2]; exact List.mem_cons_self _ _
    · exact List.mem_cons_of_mem _ (ih h2)

theorem mem_pyUniqueAux {x : String} :
    ∀ (seen l : List String), x ∈ pyUniqueAux seen l → x ∈ l := by
  intro seen l
  induction l generalizing seen with
  | nil => intro h; cases h
  | cons a rest ih =>
    intro h
    by_cases ha : a ∈ seen
    · simp only [pyUniqueAux, if_pos ha] at h
      exact List.mem_cons_of_mem _ (ih seen h)
    · simp only [pyUniqueAux, if_neg ha] at h
      rcases List.mem_cons.mp h with h2 | h2
      · rw [h2]; exact List.mem_cons_self _ _
      · exact List.mem_cons_of_mem _ (ih (a :: seen) h2)

theorem mem_pySortedSet {x : String} {l : List String}
    (h : x ∈ pySortedSet l) : x ∈ l :=
  mem_pyUniqueAux [] l (mem_sortStrings h)

/-! ### Lemmas: association building -/

theorem assocForField_spec (m : RefDict) (mid : Nat) :
    ∀ (toks : List String) (l : List Assoc),
      assocForField m mid toks = some l →
      l = toks.filterMap (fun tok =>
        if pyStrip tok = "" then none
        else (dictLookup m (pyStrip tok)).map
          (fun row => Assoc.mk mid row.id)) := by
  intro toks
  induction toks with
  | nil =>
    intro l h
    simp only [assocForField] at h
    cases h
    rfl
  | cons tok rest ih =>
    intro l h
    by_cases hstrip : pyStrip tok = ""
    · simp only [assocForField, if_pos hstrip] at h
      rw [List.filterMap_cons, if_pos hstrip]
      exact ih l h
    · simp only [assocForField, if_neg hstrip] at h
      cases hlk : dictLookup m (pyStrip tok) with
      | none =>
        rw [hlk] at h
        cases h
      | some row =>
        rw [hlk] at h
        cases hrec : assocForField m mid rest with
        | none =>
          rw [hrec] at h
          cases h
        | some l2 =>
          rw [hrec] at h
          cases h
          rw [List.filterMap_cons, if_neg hstrip, hlk]
          simp only [Option.map_some']
          rw [ih l2 hrec]

/-! ### Lemmas: the movie-insert stage -/

theorem movieRowsFrom_append (n : Nat) (a b : List MovieIns) :
    movieRowsFrom n (a ++ b) =
      movieRowsFrom n a ++ movieRowsFrom (n + a.length) b := by
  induction a generalizing n with
  | nil => simp [movieRowsFrom]
  | cons x rest ih =>
    simp only [List.cons_append, movieRowsFrom, List.length_cons, List.append_eq]
    rw [ih (n + 1), show n + (rest.length + 1) = n + 1 + rest.length by omega]

theorem movieRowsFrom_filter_not_mem (ms : List MovieIns) (nm : String) (dt : Date)
    (h : (nm, dt) ∉ ms.map (fun m => (m.name, m.date))) :
    ∀ n, (movieRowsFrom n ms).filter
      (fun r => r.name = nm ∧ r.date = dt) = [] := by
  induction ms with
  | nil => intro n; rfl
  | cons m0 rest ih =>
    intro n
    simp only [List.map_cons, List.mem_cons] at h
    push_neg at h
    obtain ⟨h0, hrest⟩ := h
    have hne : ¬(m0.name = nm ∧ m0.date = dt) := by
      intro ⟨ha, hb⟩
      exact h0 (by rw [ha, hb])
    simp only [movieRowsFrom, List.filter_cons]
    have : (decide (({ m0 with id := n } : MovieRow).name = nm ∧
        ({ m0 with id := n } : MovieRow).date = dt)) = false := by
      simpa using hne
    rw [this]
    simp only [Bool.false_eq_true, if_false]
    exact ih hrest (n + 1)

theorem movieRowsFrom_filter_unique (chunk : List MovieIns)
    (hnodup : (chunk.map (fun m => (m.name, m.date))).Nodup) :
    ∀ (n i : Nat) (m : MovieIns), chunk.get? i = some m →
      (movieRowsFrom n chunk).filter
        (fun r => r.name = m.name ∧ r.date = m.date) =
      [{ m with id := n + i }] := by
  induction chunk with
  | nil =>
    intro n i m hm
    cases i <;> cases hm
  | cons m0 rest ih =>
    simp only [List.map_cons, List.nodup_cons] at hnodup
    obtain ⟨hnot, hrest⟩ := hnodup
    intro n i m hm
    cases i with
    | zero =>
      have hm0 : m0 = m := by
        simpa using hm
      subst hm0
      have hrestnil := movieRowsFrom_filter_not_mem rest m0.name m0.date hnot (n + 1)
      simp [movieRowsFrom, List.filter_cons]
      intro a ha hname hdate
      have h2 := List.filter_eq_nil_iff.mp hrestnil a ha
      exact h2 (by simp [hname, hdate])
    | succ j =>
      have hmrest : rest.get? j = some m := by
        simpa using hm
      have hkey : (m.name, m.date) ∈ rest.map (fun x => (x.name, x.date)) :=
        List.mem_map.mpr ⟨m, List.get?_mem hmrest, rfl⟩
      have hne : ¬(m0.name = m.name ∧ m0.date = m.date) := by
        intro ⟨ha, hb⟩
        rw [ha, hb] at hnot
        exact hnot hkey
      simp only [movieRowsFrom, List.filter_cons]
      have hpred : (decide (({ m0 with id := n } : MovieRow).name = m.name ∧
          ({ m0 with id := n } : MovieRow).date = m.date)) = false := by
        simpa using hne
      rw [hpred]
      simp only [Bool.false_eq_true, if_false]
      rw [ih hrest (n + 1) j m hmrest,
        show n + 1 + j = n + (j + 1) by omega]

theorem movieRowsFrom_get? (ms : List MovieIns) :
    ∀ (n i : Nat), (movieRowsFrom n ms).get? i =
      (ms.get? i).map (fun m => ({ m with id := n + i } : MovieRow)) := by
  induction ms with
  | nil => intro n i; cases i <;> rfl
  | cons m0 rest ih =>
    intro n i
    cases i with
    | zero => simp [movieRowsFrom]
    | succ j =>
      simp only [movieRowsFrom]
      have := ih (n + 1) j
      simp only [List.get?_cons_succ]
      rw [this, show n + 1 + j = n + (j + 1) by omega]

end Populate

namespace Populate

theorem fetchIds_ok_ids (ms : List MovieIns) :
    ∀ (st : Exec) (n : Nat) {ids : List Nat} {st2 : Exec},
      (∀ (i : Nat) (m : MovieIns), ms.get? i = some m →
        st.sess.pending.movies.selectIdByKey m.name m.date = [n + i]) →
      fetchIds ms st = (.ok ids, st2) →
      ids = List.range' n ms.length := by
  induction ms with
  | nil =>
    intro st n ids st2 hsel h
    cases h
    rfl
  | cons m rest ih =>
    intro st n ids st2 hsel h
    unfold fetchIds at h
    cases hex : execStmt
        (fun db => (db.movies.selectIdByKey m.name m.date, db)) st with
    | mk r stA =>
      rw [hex] at h
      cases r with
      | error e => cases h
      | ok got =>
        obtain ⟨hval, hpend, hcomm, hfaults⟩ := execStmt_ok hex
        have hgot : got = [n] := by
          rw [hval]
          have := hsel 0 m rfl
          simpa using this
        subst hgot
        simp only [] at h
        cases hrec : fetchIds rest stA with
        | mk r2 stB =>
          rw [hrec] at h
          cases r2 with
          | error e => cases h
          | ok rids =>
            cases h
            have hsess : stA.sess = st.sess := by
              have := execStmt_sess_readonly
                (fun db => (db.movies.selectIdByKey m.name m.date, db)) st
                (fun db => rfl)
              rwa [hex] at this
            have hrids : rids = List.range' (n + 1) rest.length := by
              refine ih stA (n + 1) ?_ hrec
              intro i mi hmi
              rw [hsess]
              have := hsel (i + 1) mi (by simpa using hmi)
              rwa [show n + (i + 1) = n + 1 + i by omega] at this
            rw [hrids]
            rfl

theorem insertMoviesChunks_ok_spec :
    ∀ (cs : List (List MovieIns)) (st : Exec) {ids : List Nat} {st2 : Exec},
      insertMoviesChunks cs st = (.ok ids, st2) →
      (∀ m, m ∈ cs.flatten →
        st.sess.pending.movies.rows.filter
          (fun r => r.name = m.name ∧ r.date = m.date) = []) →
      (cs.flatten.map (fun m => (m.name, m.date))).Nodup →
      ids = List.range' st.sess.pending.movies.nextId cs.flatten.length ∧
      st2.sess.pending.movies =
        { nextId := st.sess.pending.movies.nextId + cs.flatten.length
          rows := st.sess.pending.movies.rows ++
            movieRowsFrom st.sess.pending.movies.nextId cs.flatten } := by
  intro cs
  induction cs with
  | nil =>
    intro st ids st2 h hemp hnodup
    cases h
    constructor
    · rfl
    · cases hmt : st.sess.pending.movies with
      | mk nid rows => simp [hmt, movieRowsFrom]
  | cons chunk rest ih =>
    intro st ids st2 h hemp hnodup
    rw [List.flatten_cons] at hnodup
    rw [List.map_append] at hnodup
    have hnodup_chunk : (chunk.map (fun m => (m.name, m.date))).Nodup :=
      List.Nodup.of_append_left hnodup
    have hnodup_rest : (rest.flatten.map (fun m => (m.name, m.date))).Nodup :=
      List.Nodup.of_append_right hnodup
    have hdisj := List.disjoint_of_nodup_append hnodup
    unfold insertMoviesChunks at h
    cases hex : execStmt
        (fun db => ((), { db with movies := db.movies.insertMovies chunk })) st with
    | mk r1 stA =>
      rw [hex] at h
      cases r1 with
      | error e => cases h
      | ok u1 =>
        obtain ⟨-, hpendA, hcommA, -⟩ := execStmt_ok hex
        have hmovA : stA.sess.pending.movies =
            (st.sess.pending.movies).insertMovies chunk := by
          rw [hpendA]
        simp only [] at h
        cases hfetch : fetchIds chunk stA with
        | mk r2 stB =>
          rw [hfetch] at h
          cases r2 with
          | error e => cases h
          | ok ids1 =>
            have hsessB : stB.sess = stA.sess := by
              have := fetchIds_sess chunk stA
              rwa [hfetch] at this
            have hsel : ∀ (i : Nat) (m : MovieIns), chunk.get? i = some m →
                stA.sess.pending.movies.selectIdByKey m.name m.date =
                  [st.sess.pending.movies.nextId + i] := by
              intro i m hm
              have hmemc : m ∈ chunk := List.get?_mem hm
              rw [hmovA]
              unfold MovieTable.insertMovies MovieTable.selectIdByKey
              simp only [List.filter_append]
              rw [show (st.sess.pending.movies.rows.filter
                  (fun r => decide (r.name = m.name ∧ r.date = m.date))) = []
                from hemp m (by
                  rw [List.flatten_cons, List.mem_append]
                  exact Or.inl hmemc)]
              rw [movieRowsFrom_filter_unique chunk hnodup_chunk
                st.sess.pending.movies.nextId i m hm]
              rfl
            have hids1 : ids1 = List.range' st.sess.pending.movies.nextId
                chunk.length :=
              fetchIds_ok_ids chunk stA st.sess.pending.movies.nextId hsel hfetch
            simp only [] at h
            cases hrec : insertMoviesChunks rest stB with
            | mk r3 stC =>
              rw [hrec] at h
              cases r3 with
              | error e => cases h
              | ok ids2 =>
                cases h
                have hmovB : stB.sess.pending.movies =
                    (st.sess.pending.movies).insertMovies chunk := by
                  rw [hsessB, hmovA]
                have hemp2 : ∀ m, m ∈ rest.flatten →
                    stB.sess.pending.movies.rows.filter
                      (fun r => r.name = m.name ∧ r.date = m.date) = [] := by
                  intro m hm
                  rw [hmovB]
                  unfold MovieTable.insertMovies
                  simp only [List.filter_append]
                  rw [show (st.sess.pending.movies.rows.filter
                      (fun r => decide (r.name = m.name ∧ r.date = m.date))) = []
                    from hemp m (by
                      rw [List.flatten_cons, List.mem_append]
                      exact Or.inr hm)]
                  rw [movieRowsFrom_filter_not_mem chunk m.name m.date
                    (fun hc => hdisj hc
                      (List.mem_map.mpr ⟨m, hm, rfl⟩))
                    st.sess.pending.movies.nextId]
                  rfl
                obtain ⟨hids2, hmovC⟩ := ih stB hrec hemp2 hnodup_rest
                constructor
                · rw [hids1, hids2, hmovB]
                  unfold MovieTable.insertMovies
                  simp only [List.flatten_cons, List.length_append]
                  rw [List.range'_append_1]
                  rw [Nat.add_comm rest.flatten.length chunk.length]
                · rw [hmovC, hmovB]
                  unfold MovieTable.insertMovies
                  simp only [List.flatten_cons, List.length_append,
                    List.append_assoc]
                  rw [movieRowsFrom_append]
                  congr 1
                  omega

theorem prepare_movies_data_length (data : List CleanRow) (cm : RefDict) :
    ∀ {movies : List MovieIns}, prepare_movies_data data cm = some movies →
      movies.length = data.length := by
  induction data with
  | nil =>
    intro movies h
    cases h
    rfl
  | cons r rest ih =>
    intro movies h
    simp only [prepare_movies_data] at h
    cases hlk : dictLookup cm r.country with
    | none =>
      rw [hlk] at h
      cases h
    | some c =>
      rw [hlk] at h
      cases hrec : prepare_movies_data rest cm with
      | none =>
        rw [hrec] at h
        cases h
      | some ms =>
        rw [hrec] at h
        cases h
        simp [ih hrec]

theorem prepare_movies_data_get? (data : List CleanRow) (cm : RefDict) :
    ∀ {movies : List MovieIns}, prepare_movies_data data cm = some movies →
      ∀ i, movies.get? i = (data.get? i).bind
        (fun r => (dictLookup cm r.country).map (fun c => mkMovieIns r c.id)) := by
  induction data with
  | nil =>
    intro movies h i
    cases h
    cases i <;> rfl
  | cons r rest ih =>
    intro movies h i
    simp only [prepare_movies_data] at h
    cases hlk : dictLookup cm r.country with
    | none =>
      rw [hlk] at h
      cases h
    | some c =>
      rw [hlk] at h
      cases hrec : prepare_movies_data rest cm with
      | none =>
        rw [hrec] at h
        cases h
      | some ms =>
        rw [hrec] at h
        cases h
        cases i with
        | zero => simp [hlk]
        | succ j => simpa using ih hrec j

/-! ### Lemmas: reference-data coverage -/

theorem mem_pyUniqueAux_of_mem :
    ∀ (l seen : List String) (x : String), x ∈ l → x ∉ seen →
      x ∈ pyUniqueAux seen l := by
  intro l
  induction l with
  | nil =>
    intro seen x hx hseen
    cases hx
  | cons a rest ih =>
    intro seen x hx hseen
    by_cases hax : x = a
    · subst hax
      simp only [pyUniqueAux, if_neg hseen]
      exact List.mem_cons_self _ _
    · have hx2 : x ∈ rest := by
        rcases List.mem_cons.mp hx with h2 | h2
        · exact absurd h2 hax
        · exact h2
      by_cases ha : a ∈ seen
      · simp only [pyUniqueAux, if_pos ha]
        exact ih seen x hx2 hseen
      · simp only [pyUniqueAux, if_neg ha]
        refine List.mem_cons_of_mem _ (ih (a :: seen) x hx2 ?_)
        intro hc
        rcases List.mem_cons.mp hc with h2 | h2
        · exact hax h2
        · exact hseen h2

theorem mem_pyUnique_of_mem {x : String} {l : List String} (h : x ∈ l) :
    x ∈ pyUnique l :=
  mem_pyUniqueAux_of_mem l [] x h (by simp)

theorem isSome_of_eq_ne_none {o p : Option Row} (h1 : o = p) (h2 : p ≠ none) :
    o.isSome = true := by
  subst h1
  cases o with
  | none => exact absurd rfl h2
  | some v => rfl

theorem prepare_movies_data_total (data : List CleanRow) (cm : RefDict)
    (h : ∀ r, r ∈ data → (dictLookup cm r.country).isSome) :
    ∃ movies, prepare_movies_data data cm = some movies := by
  induction data with
  | nil => exact ⟨[], rfl⟩
  | cons r rest ih =>
    have hs := h r (List.mem_cons_self _ _)
    cases hlk : dictLookup cm r.country with
    | none =>
      rw [hlk] at hs
      cases hs
    | some c =>
      obtain ⟨ms, hms⟩ := ih (fun r2 hr2 => h r2 (List.mem_cons_of_mem _ hr2))
      refine ⟨mkMovieIns r c.id :: ms, ?_⟩
      simp only [prepare_movies_data]
      rw [hlk, hms]

theorem assocForField_total (m : RefDict) (mid : Nat) (toks : List String)
    (h : ∀ tok, tok ∈ toks → pyStrip tok ≠ "" →
        (dictLookup m (pyStrip tok)).isSome) :
    ∃ l, assocForField m mid toks = some l := by
  induction toks with
  | nil => exact ⟨[], rfl⟩
  | cons tok rest ih =>
    obtain ⟨l2, hl2⟩ := ih (fun t ht => h t (List.mem_cons_of_mem _ ht))
    by_cases hstrip : pyStrip tok = ""
    · refine ⟨l2, ?_⟩
      simp only [assocForField, if_pos hstrip]
      exact hl2
    · have hs := h tok (List.mem_cons_self _ _) hstrip
      cases hlk : dictLookup m (pyStrip tok) with
      | none =>
        rw [hlk] at hs
        cases hs
      | some row =>
        refine ⟨⟨mid, row.id⟩ :: l2, ?_⟩
        simp only [assocForField, if_neg hstrip]
        rw [hlk, hl2]

theorem prepare_associations_total :
    ∀ (data : List CleanRow) (ids : List Nat) (gm am lm : RefDict),
      (∀ r, r ∈ data → ∀ tok, tok ∈ splitComma r.genre → pyStrip tok ≠ "" →
          (dictLookup gm (pyStrip tok)).isSome) →
      (∀ r, r ∈ data → ∀ tok, tok ∈ splitComma r.crew → pyStrip tok ≠ "" →
          (dictLookup am (pyStrip tok)).isSome) →
      (∀ r, r ∈ data → ∀ tok, tok ∈ splitComma r.orig_lang →
          pyStrip tok ≠ "" → (dictLookup lm (pyStrip tok)).isSome) →
      data.length ≤ ids.length →
      ∃ tri, prepare_associations data ids gm am lm = some tri := by
  intro data
  induction data with
  | nil =>
    intro ids gm am lm hg hc hl hlen
    exact ⟨([], [], []), rfl⟩
  | cons r rest ih =>
    intro ids gm am lm hg hc hl hlen
    cases ids with
    | nil => simp at hlen
    | cons mid idRest =>
      obtain ⟨gs, hgs⟩ := assocForField_total gm mid (splitComma r.genre)
        (hg r (List.mem_cons_self _ _))
      obtain ⟨cs, hcs⟩ := assocForField_total am mid (splitComma r.crew)
        (hc r (List.mem_cons_self _ _))
      obtain ⟨ls, hls⟩ := assocForField_total lm mid (splitComma r.orig_lang)
        (hl r (List.mem_cons_self _ _))
      obtain ⟨⟨gs2, cs2, ls2⟩, hrec⟩ := ih idRest gm am lm
        (fun r2 hr2 => hg r2 (List.mem_cons_of_mem _ hr2))
        (fun r2 hr2 => hc r2 (List.mem_cons_of_mem _ hr2))
        (fun r2 hr2 => hl r2 (List.mem_cons_of_mem _ hr2))
        (by simpa using Nat.le_of_succ_le_succ (by simpa using hlen))
      refine ⟨(gs ++ gs2, cs ++ cs2, ls ++ ls2), ?_⟩
      simp only [prepare_associations]
      rw [hgs, hcs, hls, hrec]

end Populate

namespace Populate

/-! ### Claim theorems -/

/-- Claim C1: if any database statement during a seeding run raises a
data-layer error, the transaction is rolled back and the error re-raised,
so that afterward no rows written by any stage of the run (user groups,
reference entities, movies, associations) are persisted — the committed
snapshot after a failing `seed` equals the snapshot before it, for every
fault schedule and every input; and when `seed` succeeds the pipeline has
reached commit (the committed snapshot equals the final pending one), so
either the full pipeline commits or nothing is persisted. -/
theorem seed_all_or_nothing (csv : List RawRow) (st : Exec) :
    (∀ e, (seed csv st).1 = .error e →
        (seed csv st).2.sess.committed = st.sess.committed) ∧
    ((seed csv st).1 = .ok () →
        (seed csv st).2.sess.committed = (seed csv st).2.sess.pending) :=
  seed_committed_spec csv st

theorem seed_all_or_nothing_witness :
    ((seed [sampleRow] faultyExec).1 = .error .dbError ∧
      (seed [sampleRow] faultyExec).2.sess.committed = faultyExec.sess.committed) ∧
    ((seed [sampleRow] freshExec).1 = .ok () ∧
      (seed [sampleRow] freshExec).2.sess.committed =
        (seed [sampleRow] freshExec).2.sess.pending) :=
  ⟨⟨rfl, (seed_all_or_nothing [sampleRow] faultyExec).1 .dbError rfl⟩,
   ⟨rfl, (seed_all_or_nothing [sampleRow] freshExec).2 rfl⟩⟩

/-- Claim C8: if the store already contains at least one movie row,
running the seeder entry point performs zero database writes — the
population check short-circuits seeding and the database state (both the
committed snapshot and the session's pending one) is unchanged. -/
theorem main_skips_when_populated (csv : List RawRow) (st : Exec)
    (hfresh : st.sess.pending = st.sess.committed)
    (hpop : st.sess.committed.movies.rows ≠ []) :
    (mainRun csv st).2.sess = st.sess :=
  mainRun_populated_sess csv st hfresh hpop

theorem main_skips_when_populated_witness :
    popExec.sess.pending = popExec.sess.committed ∧
    popExec.sess.committed.movies.rows ≠ [] ∧
    (mainRun [sampleRow] popExec).2.sess = popExec.sess :=
  ⟨rfl, by decide,
   main_skips_when_populated [sampleRow] popExec rfl (by decide)⟩

/-- Claim C4: for every entity kind (a lawful table lens), list of
candidate natural-key strings and initial state, when
`_get_or_create_bulk` returns a mapping, that mapping contains every
input string as a key exactly once, each mapped to a row with that key
that is persisted in the resulting table (pre-existing or newly
created). -/
theorem get_or_create_bulk_contract (ref : TableRef)
    (href : ∀ db t, ref.get (ref.set db t) = t)
    (items : List String) (st : Exec) {m : RefDict}
    (h : (get_or_create_bulk ref items st).1 = .ok m) :
    (∀ k, k ∈ items → (m.map Prod.fst).count k = 1) ∧
    (∀ k, k ∈ items → ∃ r, dictLookup m k = some r ∧ r.key = k ∧
        r ∈ (ref.get (get_or_create_bulk ref items st).2.sess.pending).rows) := by
  cases hp : get_or_create_bulk ref items st with
  | mk r0 st2 =>
    rw [hp] at h
    cases r0 with
    | error e => simp at h
    | ok mm =>
      have hmm : mm = m := by
        simpa using h
      subst hmm
      obtain ⟨-, hmem, -, hnodup⟩ := get_or_create_bulk_ok_spec ref href items st hp
      constructor
      · intro k hk
        obtain ⟨hlk, hne⟩ := hmem k hk
        cases hlw : (ref.get st2.sess.pending).lastWithKey k with
        | none => exact absurd hlw hne
        | some r =>
          rw [hlw] at hlk
          exact List.count_eq_one_of_mem hnodup (mem_keys_of_lookup_some hlk)
      · intro k hk
        obtain ⟨hlk, hne⟩ := hmem k hk
        cases hlw : (ref.get st2.sess.pending).lastWithKey k with
        | none => exact absurd hlw hne
        | some r =>
          rw [hlw] at hlk
          obtain ⟨hkey, hrow⟩ := lastWithKey_some_spec hlw
          exact ⟨r, hlk, hkey, hrow⟩

theorem get_or_create_bulk_contract_witness :
    ((get_or_create_bulk genresRef ["b", "a"] genreExec).1 =
        .ok [("a", ⟨1, "a"⟩), ("b", ⟨5, "b"⟩)]) ∧
    (([("a", (⟨1, "a"⟩ : Row)), ("b", ⟨5, "b"⟩)].map Prod.fst).count "b" = 1) ∧
    (∃ r, dictLookup [("a", ⟨1, "a"⟩), ("b", ⟨5, "b"⟩)] "b" = some r ∧
        r.key = "b" ∧
        r ∈ (genresRef.get
          (get_or_create_bulk genresRef ["b", "a"] genreExec).2.sess.pending).rows) :=
  ⟨rfl,
   (get_or_create_bulk_contract genresRef (fun _ _ => rfl) ["b", "a"]
      genreExec rfl).1 "b" (by decide),
   (get_or_create_bulk_contract genresRef (fun _ _ => rfl) ["b", "a"]
      genreExec rfl).2 "b" (by decide)⟩

/-- Claim C3: for every entity kind and key list, running the reference
resolution `_get_or_create_bulk` a second time in sequence with the same
key list yields the identical key-to-row mapping (hence identical row
identifiers) as the first run, and the second run inserts zero new rows —
the pending snapshot is untouched. -/
theorem get_or_create_bulk_idempotent (ref : TableRef)
    (href : ∀ db t, ref.get (ref.set db t) = t)
    (items : List String) (st : Exec) {m1 m2 : RefDict}
    (h1 : (get_or_create_bulk ref items st).1 = .ok m1)
    (h2 : (get_or_create_bulk ref items
        (get_or_create_bulk ref items st).2).1 = .ok m2) :
    (∀ k, dictLookup m2 k = dictLookup m1 k) ∧
    (get_or_create_bulk ref items
        (get_or_create_bulk ref items st).2).2.sess.pending =
      (get_or_create_bulk ref items st).2.sess.pending := by
  cases hp1 : get_or_create_bulk ref items st with
  | mk r1 st1 =>
    rw [hp1] at h1 h2
    cases r1 with
    | error e => simp at h1
    | ok mm1 =>
      have hmm1 : mm1 = m1 := by
        simpa using h1
      subst hmm1
      obtain ⟨-, hmem1, hnot1, -⟩ := get_or_create_bulk_ok_spec ref href items st hp1
      cases hp2 : get_or_create_bulk ref items st1 with
      | mk r2 st2 =>
        rw [hp2] at h2
        cases r2 with
        | error e => simp at h2
        | ok mm2 =>
          have hmm2 : mm2 = m2 := by
            simpa using h2
          subst hmm2
          unfold get_or_create_bulk at hp2
          cases hsel2 : selectLoop ref (chunksOf CHUNK_SIZE items) [] st1 with
          | mk rs stS =>
            rw [hsel2] at hp2
            cases rs with
            | error e =>
              have := congrArg Prod.fst hp2
              exact Except.noConfusion this
            | ok d =>
              have hsessS : stS.sess = st1.sess := by
                have := selectLoop_sess ref (chunksOf CHUNK_SIZE items) [] st1
                rwa [hsel2] at this
              have hd := phase1_lookup ref items st1 hsel2
              have hcont : ∀ k, k ∈ items → dictContains d k = true := by
                intro k hk
                obtain ⟨hlk1, hne1⟩ := hmem1 k hk
                rw [dictContains_eq_isSome, hd k, if_pos hk]
                cases hlw : (ref.get st1.sess.pending).lastWithKey k with
                | none => exact absurd hlw hne1
                | some r => simp
              have hnil : items.filter (fun it => !dictContains d it) = [] := by
                rw [List.filter_eq_nil_iff]
                intro a ha
                simp [hcont a ha]
              simp only [] at hp2
              rw [hnil] at hp2
              simp only [List.isEmpty_nil, if_pos rfl] at hp2
              have hmd : d = mm2 := by
                have := congrArg Prod.fst hp2
                simpa using this
              have hstS2 : stS = st2 := by
                have := congrArg Prod.snd hp2
                simpa using this
              subst hmd
              subst hstS2
              constructor
              · intro k
                by_cases hk : k ∈ items
                · obtain ⟨hlk1, hne1⟩ := hmem1 k hk
                  rw [hd k, if_pos hk, hlk1]
                · rw [hd k, if_neg hk, hnot1 k hk]
              · rw [hsessS]

/-- Claim C2: for every cleaned input dataset whose movie records resolve
(`_prepare_movies_data` returns a record per row), starting from an empty
movies table and with the natural keys `(name, date)` duplicate-free (as
the upstream duplicate removal guarantees), the identifier list the
movie-insertion stage returns has length equal to the number of input
rows, and the identifier at position `i` is the database id of the
persisted movie row built from row `i` (same fields, country resolved
through the map). -/
theorem movie_ids_aligned (data : List CleanRow) (cm : RefDict)
    {movies : List MovieIns} (st : Exec) {ids : List Nat}
    (hmov : prepare_movies_data data cm = some movies)
    (hempty : st.sess.pending.movies.rows = [])
    (hkeys : (movies.map (fun m => (m.name, m.date))).Nodup)
    (h : (insertMoviesChunks (chunksOf CHUNK_SIZE movies) st).1 = .ok ids) :
    ids.length = data.length ∧
    (∀ i, i < data.length → ∃ r cr c,
      data.get? i = some cr ∧
      dictLookup cm cr.country = some c ∧
      r ∈ (insertMoviesChunks
        (chunksOf CHUNK_SIZE movies) st).2.sess.pending.movies.rows ∧
      r.toMovieIns = mkMovieIns cr c.id ∧
      ids.get? i = some r.id) := by
  cases hp : insertMoviesChunks (chunksOf CHUNK_SIZE movies) st with
  | mk r0 st2 =>
    rw [hp] at h
    cases r0 with
    | error e => simp at h
    | ok mids =>
      have hmids : mids = ids := by
        simpa using h
      subst hmids
      have hlen := prepare_movies_data_length data cm hmov
      obtain ⟨hids, hmt⟩ := insertMoviesChunks_ok_spec
        (chunksOf CHUNK_SIZE movies) st hp
        (by
          intro m hm
          rw [hempty]
          rfl)
        (by
          rw [flatten_chunksOf]
          exact hkeys)
      rw [flatten_chunksOf] at hids hmt
      constructor
      · rw [hids]
        simp [hlen]
      · intro i hi
        have hi2 : i < movies.length := by
          rw [hlen]
          exact hi
        have hcr : data.get? i = some (data.get ⟨i, hi⟩) :=
          List.get?_eq_get hi
        have hmi := prepare_movies_data_get? data cm hmov i
        rw [hcr] at hmi
        simp only [Option.some_bind] at hmi
        cases hlk : dictLookup cm (data.get ⟨i, hi⟩).country with
        | none =>
          rw [hlk] at hmi
          rw [List.get?_eq_get hi2] at hmi
          simp at hmi
        | some c =>
          rw [hlk] at hmi
          simp only [Option.map_some'] at hmi
          refine ⟨{ mkMovieIns (data.get ⟨i, hi⟩) c.id with
              id := st.sess.pending.movies.nextId + i }, data.get ⟨i, hi⟩, c,
            hcr, hlk, ?_, rfl, ?_⟩
          · have hget := movieRowsFrom_get? movies
              st.sess.pending.movies.nextId i
            rw [hmi] at hget
            simp only [Option.map_some'] at hget
            have hmem := List.get?_mem hget
            rw [hmt, hempty]
            simpa using hmem
          · rw [hids]
            rw [List.get?_eq_getElem?]
            rw [List.getElem?_range' st.sess.pending.movies.nextId 1
              (by simpa using hi2)]
            simp

theorem movie_ids_aligned_witness :
    ((insertMoviesChunks (chunksOf CHUNK_SIZE
        [mkMovieIns c2RowA 9, mkMovieIns c2RowB 9]) freshExec).1 =
      .ok [1, 2]) ∧
    ([1, 2] : List Nat).length = ([c2RowA, c2RowB] : List CleanRow).length ∧
    (∃ r cr c,
      ([c2RowA, c2RowB] : List CleanRow).get? 0 = some cr ∧
      dictLookup cmC2 cr.country = some c ∧
      r ∈ (insertMoviesChunks (chunksOf CHUNK_SIZE
        [mkMovieIns c2RowA 9, mkMovieIns c2RowB 9])
          freshExec).2.sess.pending.movies.rows ∧
      r.toMovieIns = mkMovieIns cr c.id ∧
      ([1, 2] : List Nat).get? 0 = some r.id) := by
  have hthm := movie_ids_aligned [c2RowA, c2RowB] cmC2 freshExec
    rfl rfl (by decide) rfl
  exact ⟨rfl, hthm.1, hthm.2 0 (by decide)⟩

/-- Claim C10: the reference-data stage builds its candidate sets with
the same split-on-comma, strip, drop-empty rule later used by association
building, so for every cleaned dataset: every row's country string and
every non-empty trimmed genre / crew / orig_lang token of every row is a
key of the corresponding resolved map, and consequently the map lookups
in movie building and association building never fail (both stages
return a result for any id list long enough). -/
theorem reference_maps_cover (data : List CleanRow) (st : Exec)
    {cm gm am lm : RefDict}
    (h : (prepare_reference_data data st).1 = .ok (cm, gm, am, lm)) :
    (∀ r, r ∈ data → (dictLookup cm r.country).isSome) ∧
    (∀ r, r ∈ data → ∀ tok, tok ∈ splitComma r.genre → pyStrip tok ≠ "" →
        (dictLookup gm (pyStrip tok)).isSome) ∧
    (∀ r, r ∈ data → ∀ tok, tok ∈ splitComma r.crew → pyStrip tok ≠ "" →
        (dictLookup am (pyStrip tok)).isSome) ∧
    (∀ r, r ∈ data → ∀ tok, tok ∈ splitComma r.orig_lang →
        pyStrip tok ≠ "" → (dictLookup lm (pyStrip tok)).isSome) ∧
    (∃ movies, prepare_movies_data data cm = some movies) ∧
    (∀ ids : List Nat, data.length ≤ ids.length →
        ∃ tri, prepare_associations data ids gm am lm = some tri) := by
  cases hp : prepare_reference_data data st with
  | mk r0 stF =>
    rw [hp] at h
    cases r0 with
    | error e => simp at h
    | ok maps =>
      have hmaps : maps = (cm, gm, am, lm) := by
        simpa using h
      subst hmaps
      unfold prepare_reference_data at hp
      simp only [] at hp
      cases h1 : get_or_create_bulk countriesRef (referenceItems data).1 st with
      | mk r1 st1 =>
        rw [h1] at hp
        cases r1 with
        | error e => simp at hp
        | ok cmx =>
          simp only [] at hp
          cases h2 : get_or_create_bulk genresRef
              (referenceItems data).2.1 st1 with
          | mk r2 st2 =>
            rw [h2] at hp
            cases r2 with
            | error e => simp at hp
            | ok gmx =>
              simp only [] at hp
              cases h3 : get_or_create_bulk actorsRef
                  (referenceItems data).2.2.1 st2 with
              | mk r3 st3 =>
                rw [h3] at hp
                cases r3 with
                | error e => simp at hp
                | ok amx =>
                  simp only [] at hp
                  cases h4 : get_or_create_bulk languagesRef
                      (referenceItems data).2.2.2 st3 with
                  | mk r4 st4 =>
                    rw [h4] at hp
                    cases r4 with
                    | error e => simp at hp
                    | ok lmx =>
                      simp only [] at hp
                      have hinj :
                          cmx = cm ∧ gmx = gm ∧ amx = am ∧ lmx = lm := by
                        have := congrArg Prod.fst hp
                        simp only [] at this
                        have h5 : (cmx, gmx, amx, lmx) = (cm, gm, am, lm) := by
                          simpa using this
                        simp only [Prod.mk.injEq] at h5
                        exact ⟨h5.1, h5.2.1, h5.2.2.1, h5.2.2.2⟩
                      obtain ⟨e1, e2, e3, e4⟩ := hinj
                      subst e1
                      subst e2
                      subst e3
                      subst e4
                      obtain ⟨-, hmem1, -, -⟩ := get_or_create_bulk_ok_spec
                        countriesRef (fun _ _ => rfl)
                        (referenceItems data).1 st h1
                      obtain ⟨-, hmem2, -, -⟩ := get_or_create_bulk_ok_spec
                        genresRef (fun _ _ => rfl)
                        (referenceItems data).2.1 st1 h2
                      obtain ⟨-, hmem3, -, -⟩ := get_or_create_bulk_ok_spec
                        actorsRef (fun _ _ => rfl)
                        (referenceItems data).2.2.1 st2 h3
                      obtain ⟨-, hmem4, -, -⟩ := get_or_create_bulk_ok_spec
                        languagesRef (fun _ _ => rfl)
                        (referenceItems data).2.2.2 st3 h4
                      have hcov1 : ∀ r, r ∈ data →
                          (dictLookup cmx r.country).isSome := by
                        intro r hr
                        obtain ⟨hlk, hne⟩ := hmem1 r.country
                          (mem_pyUnique_of_mem
                            (List.mem_map.mpr ⟨r, hr, rfl⟩))
                        exact isSome_of_eq_ne_none hlk hne
                      have hcov2 : ∀ r, r ∈ data → ∀ tok,
                          tok ∈ splitComma r.genre → pyStrip tok ≠ "" →
                          (dictLookup gmx (pyStrip tok)).isSome := by
                        intro r hr tok htok hne
                        obtain ⟨hlk, hne2⟩ := hmem2 (pyStrip tok)
                          (mem_pyUnique_of_mem (List.mem_flatMap.mpr
                            ⟨r, hr, List.mem_filter.mpr
                              ⟨List.mem_map.mpr ⟨tok, htok, rfl⟩,
                               by simpa using hne⟩⟩))
                        exact isSome_of_eq_ne_none hlk hne2
                      have hcov3 : ∀ r, r ∈ data → ∀ tok,
                          tok ∈ splitComma r.crew → pyStrip tok ≠ "" →
                          (dictLookup amx (pyStrip tok)).isSome := by
                        intro r hr tok htok hne
                        obtain ⟨hlk, hne2⟩ := hmem3 (pyStrip tok)
                          (mem_pyUnique_of_mem (List.mem_flatMap.mpr
                            ⟨r, hr, List.mem_filter.mpr
                              ⟨List.mem_map.mpr ⟨tok, htok, rfl⟩,
                               by simpa using hne⟩⟩))
                        exact isSome_of_eq_ne_none hlk hne2
                      have hcov4 : ∀ r, r ∈ data → ∀ tok,
                          tok ∈ splitComma r.orig_lang → pyStrip tok ≠ "" →
                          (dictLookup lmx (pyStrip tok)).isSome := by
                        intro r hr tok htok hne
                        obtain ⟨hlk, hne2⟩ := hmem4 (pyStrip tok)
                          (mem_pyUnique_of_mem (List.mem_flatMap.mpr
                            ⟨r, hr, List.mem_filter.mpr
                              ⟨List.mem_map.mpr ⟨tok, htok, rfl⟩,
                               by simpa using hne⟩⟩))
                        exact isSome_of_eq_ne_none hlk hne2
                      exact ⟨hcov1, hcov2, hcov3, hcov4,
                        prepare_movies_data_total data cmx hcov1,
                        fun ids hlen => prepare_associations_total data ids
                          gmx amx lmx hcov2 hcov3 hcov4 hlen⟩

theorem reference_maps_cover_witness :
    ((prepare_reference_data [assocRow] freshExec).1 =
        .ok ([("US", ⟨1, "US"⟩)], [("Action", ⟨1, "Action"⟩)],
          [("A", ⟨1, "A"⟩)], [("en", ⟨1, "en"⟩)])) ∧
    (dictLookup [("Action", (⟨1, "Action"⟩ : Row))] (pyStrip "Action")).isSome ∧
    (∃ movies, prepare_movies_data [assocRow] [("US", ⟨1, "US"⟩)] =
        some movies) ∧
    (∃ tri, prepare_associations [assocRow] [7]
        [("Action", ⟨1, "Action"⟩)] [("A", ⟨1, "A"⟩)] [("en", ⟨1, "en"⟩)] =
      some tri) := by
  have hthm := reference_maps_cover [assocRow] freshExec rfl
  refine ⟨rfl, ?_, hthm.2.2.2.2.1, hthm.2.2.2.2.2 [7] (by decide)⟩
  exact hthm.2.1 assocRow (by decide) "Action" (by decide) (by decide)

/-- Claim C5: the preprocessing stage (a total function — it never raises
on data-quality issues) degrades instead of failing: rows whose date does
not parse as `YYYY-MM-DD` are counted and dropped (the kept rows plus the
reported count add up to the de-duplicated input, the count is exactly
the number of unparseable-date rows, an unparseable-date row yields no
cleaned row, and a parseable-date row is always kept); unparseable
budget / revenue / score values default to `0.0` with the row kept (in
particular a budget of `"N/A"`, which does not parse); and missing
crew / genre / country / orig_lang / status values become the string
`"Unknown"`. -/
theorem preprocess_csv_degrades (rows : List RawRow) :
    ((preprocess_csv rows).1.length + (preprocess_csv rows).2 =
        (dropDuplicates rows).length) ∧
    ((preprocess_csv rows).2 =
        ((dropDuplicates rows).filter
          (fun r => parseDate r.date_x = none)).length) ∧
    (∀ r, parseDate r.date_x = none → cleanRow r = none) ∧
    (∀ r, parseDate r.date_x ≠ none → ∃ c, cleanRow r = some c) ∧
    (∀ r c, cleanRow r = some c →
        (parseNumeric r.budget_x = none → c.budget = 0) ∧
        (parseNumeric r.revenue = none → c.revenue = 0) ∧
        (parseNumeric r.score = none → c.score = 0) ∧
        (r.crew = none → c.crew = "Unknown") ∧
        (r.genre = none → c.genre = "Unknown") ∧
        (r.country = none → c.country = "Unknown") ∧
        (r.orig_lang = none → c.orig_lang = "Unknown") ∧
        (r.status = none → c.status = "Unknown")) ∧
    parseNumeric "N/A" = none := by
  refine ⟨?_, rfl, ?_, ?_, ?_, by decide⟩
  · exact filterMap_cleanRow_length (dropDuplicates rows)
  · intro r hr
    exact (cleanRow_eq_none_iff r).mpr hr
  · intro r hr
    cases hd : parseDate r.date_x with
    | none => exact absurd hd hr
    | some d =>
      unfold cleanRow
      rw [hd]
      exact ⟨_, rfl⟩
  · intro r c hc
    cases hd : parseDate r.date_x with
    | none =>
      rw [(cleanRow_eq_none_iff r).mpr hd] at hc
      cases hc
    | some d =>
      unfold cleanRow at hc
      rw [hd] at hc
      cases hc
      refine ⟨?_, ?_, ?_, ?_, ?_, ?_, ?_, ?_⟩ <;> intro hvar <;>
        rw [hvar] <;> rfl

theorem preprocess_csv_degrades_witness :
    cleanRow rowBadDate = none ∧
    ((preprocess_csv [rowBadDate, sampleRow2]).1.length +
        (preprocess_csv [rowBadDate, sampleRow2]).2 =
      (dropDuplicates [rowBadDate, sampleRow2]).length) ∧
    parseNumeric sampleRow2.budget_x = none ∧
    cleanRow sampleRow2 = some sampleClean2 ∧
    sampleClean2.budget = 0 ∧
    sampleClean2.crew = "Unknown" := by
  obtain ⟨hlen, hcnt, hdrop, hkeep, hrow, hna⟩ :=
    preprocess_csv_degrades [rowBadDate, sampleRow2]
  refine ⟨hdrop rowBadDate (by decide), hlen, by decide, rfl, ?_, ?_⟩
  · exact (hrow sampleRow2 sampleClean2 rfl).1 (by decide)
  · exact (hrow sampleRow2 sampleClean2 rfl).2.2.2.1 rfl

/-- Claim C6: for every non-`"Unknown"` crew value, preprocessing produces
the comma-join of the lexicographically sorted set of its
whitespace-stripped comma-separated tokens (stripping removes every
whitespace character of a token, as the `\s+` regex does); in particular
the crew value `"b, a, a"` becomes `"a,b"`. -/
theorem crew_canonical_form :
    (∀ v : String, removeWS v ≠ "Unknown" →
        cleanCrew (some v) =
          joinComma (pySortedSet ((splitComma v).map removeWS))) ∧
    cleanCrew (some "b, a, a") = "a,b" := by
  refine ⟨?_, by decide⟩
  intro v hv
  unfold cleanCrew
  rw [show fillUnknown (some v) = v from rfl, if_pos hv, splitComma_removeWS]

theorem crew_canonical_form_witness :
    removeWS "b, a, a" ≠ "Unknown" ∧
    cleanCrew (some "b, a, a") =
      joinComma (pySortedSet ((splitComma "b, a, a").map removeWS)) ∧
    cleanCrew (some "b, a, a") = "a,b" :=
  ⟨by decide, crew_canonical_form.1 "b, a, a" (by decide),
   crew_canonical_form.2⟩

/-- Claim C9: crew preprocessing removes every whitespace character from
the crew string — including spaces inside an individual name — before
splitting on commas: no character of the cleaned crew value is
whitespace, and a multi-word name such as `"John Smith"` is canonicalized
to the single token `"JohnSmith"` rather than merely being trimmed at
token boundaries. -/
theorem crew_removes_all_whitespace :
    (∀ (v : String) (ch : Char),
        ch ∈ (cleanCrew (some v)).data → pyIsSpace ch = false) ∧
    cleanCrew (some "John Smith") = "JohnSmith" ∧
    cleanCrew (some "John Smith, Jane Doe") = "JaneDoe,JohnSmith" := by
  refine ⟨?_, by decide, by decide⟩
  intro v ch hch
  unfold cleanCrew at hch
  rw [show fillUnknown (some v) = v from rfl] at hch
  have hws : ∀ ch2, ch2 ∈ (removeWS v).data → pyIsSpace ch2 = false := by
    intro ch2 h2
    have := List.mem_filter.mp h2
    simpa using this.2
  by_cases hu : removeWS v ≠ "Unknown"
  · rw [if_pos hu] at hch
    rcases joinComma_chars _ ch hch with hc | ⟨t, ht, hcht⟩
    · rw [hc]
      decide
    · have ht2 : t ∈ splitComma (removeWS v) :=
        mem_pySortedSet ht
      unfold splitComma splitOn at ht2
      obtain ⟨piece, hpiece, hteq⟩ := List.mem_map.mp ht2
      rw [← hteq] at hcht
      rcases splitCharAux_chars ',' (removeWS v).data [] piece ch hpiece hcht
        with h0 | h0
      · cases h0
      · exact hws ch h0
  · rw [if_neg hu] at hch
    exact hws ch hch

theorem crew_removes_all_whitespace_witness :
    ('h' ∈ (cleanCrew (some "John Smith")).data ∧
      pyIsSpace 'h' = false) ∧
    cleanCrew (some "John Smith") = "JohnSmith" ∧
    cleanCrew (some "John Smith, Jane Doe") = "JaneDoe,JohnSmith" :=
  ⟨⟨by decide, crew_removes_all_whitespace.1 "John Smith" 'h' (by decide)⟩,
   crew_removes_all_whitespace.2.1, crew_removes_all_whitespace.2.2⟩

/-- Claim C7: for every cleaned row, association building splits the
genre / crew / orig_lang fields on comma, trims each token, and emits
exactly one association pair `(movie_id, ref_id)` per non-empty trimmed
token per category (each output list is the row-by-row concatenation of
one pair per kept token), and an empty token — e.g. from a trailing comma
as in `"Action,"` — produces no association row (`filterMap` drops it). -/
theorem associations_one_per_token (data : List CleanRow) (ids : List Nat)
    (gm am lm : RefDict) {mg ma ml : List Assoc}
    (h : prepare_associations data ids gm am lm = some (mg, ma, ml)) :
    mg = (data.zip ids).flatMap (fun p =>
        (splitComma p.1.genre).filterMap (fun tok =>
          if pyStrip tok = "" then none
          else (dictLookup gm (pyStrip tok)).map
            (fun row => Assoc.mk p.2 row.id))) ∧
    ma = (data.zip ids).flatMap (fun p =>
        (splitComma p.1.crew).filterMap (fun tok =>
          if pyStrip tok = "" then none
          else (dictLookup am (pyStrip tok)).map
            (fun row => Assoc.mk p.2 row.id))) ∧
    ml = (data.zip ids).flatMap (fun p =>
        (splitComma p.1.orig_lang).filterMap (fun tok =>
          if pyStrip tok = "" then none
          else (dictLookup lm (pyStrip tok)).map
            (fun row => Assoc.mk p.2 row.id))) := by
  induction data generalizing ids mg ma ml with
  | nil =>
    simp only [prepare_associations] at h
    cases h
    simp
  | cons r rest ih =>
    cases ids with
    | nil =>
      simp only [prepare_associations] at h
      cases h
    | cons mid idRest =>
      simp only [prepare_associations] at h
      cases hg : assocForField gm mid (splitComma r.genre) with
      | none =>
        rw [hg] at h
        simp at h
      | some gs =>
        rw [hg] at h
        cases hcw : assocForField am mid (splitComma r.crew) with
        | none =>
          rw [hcw] at h
          simp at h
        | some cs =>
          rw [hcw] at h
          cases hl : assocForField lm mid (splitComma r.orig_lang) with
          | none =>
            rw [hl] at h
            simp at h
          | some ls =>
            rw [hl] at h
            cases hrec : prepare_associations rest idRest gm am lm with
            | none =>
              rw [hrec] at h
              simp at h
            | some tri =>
              obtain ⟨gs2, cs2, ls2⟩ := tri
              rw [hrec] at h
              simp only [] at h
              obtain ⟨h1, h2, h3⟩ :
                  gs ++ gs2 = mg ∧ cs ++ cs2 = ma ∧ ls ++ ls2 = ml := by
                cases h
                exact ⟨rfl, rfl, rfl⟩
              obtain ⟨ih1, ih2, ih3⟩ := ih idRest hrec
              subst h1
              subst h2
              subst h3
              refine ⟨?_, ?_, ?_⟩
              · rw [List.zip_cons_cons, List.flatMap_cons,
                  assocForField_spec gm mid (splitComma r.genre) gs hg, ih1]
              · rw [List.zip_cons_cons, List.flatMap_cons,
                  assocForField_spec am mid (splitComma r.crew) cs hcw, ih2]
              · rw [List.zip_cons_cons, List.flatMap_cons,
                  assocForField_spec lm mid (splitComma r.orig_lang) ls hl, ih3]

theorem associations_one_per_token_witness :
    prepare_associations [assocRow] [7] gmFix amFix lmFix =
      some ([Assoc.mk 7 3], [Assoc.mk 7 4], [Assoc.mk 7 5]) ∧
    [Assoc.mk 7 3] = ([assocRow].zip [7]).flatMap (fun p =>
        (splitComma p.1.genre).filterMap (fun tok =>
          if pyStrip tok = "" then none
          else (dictLookup gmFix (pyStrip tok)).map
            (fun row => Assoc.mk p.2 row.id))) :=
  ⟨rfl,
   (associations_one_per_token [assocRow] [7] gmFix amFix lmFix rfl).1⟩

theorem get_or_create_bulk_idempotent_witness :
    (∀ k, dictLookup [("a", ⟨1, "a"⟩), ("b", ⟨5, "b"⟩)] k =
        dictLookup [("a", ⟨1, "a"⟩), ("b", ⟨5, "b"⟩)] k) ∧
    (get_or_create_bulk genresRef ["b", "a"]
        (get_or_create_bulk genresRef ["b", "a"] genreExec).2).2.sess.pending =
      (get_or_create_bulk genresRef ["b", "a"] genreExec).2.sess.pending :=
  get_or_create_bulk_idempotent genresRef (fun _ _ => rfl) ["b", "a"]
    genreExec rfl rfl

end Populate
